import Mathlib

/-!
Verification of a Jaro-Winkler similarity scorer (`src/jarowinkler.rs`).

The development has three layers:

1. An exact model of IEEE-754 binary64 arithmetic on nonnegative, non-overflowing
   values: `fround` maps a rational to the nearest 53-bit-significand dyadic
   rational (ties to even), and `fadd`/`fsub`/`fmul`/`fdiv` are the correctly
   rounded operations.  In the numeric range exercised by the scorer (no
   overflow, no underflow, no NaN inputs) this is exactly `f64`.

2. A shallow embedding of the Rust code: the scorer state `JaroWinkler` with its
   scratch buffer `indices : List Int`, and the operations `with_size`, `new`,
   `ensure_capacity`, `matches`, `transpositions`, `pfxCount` (the source's
   common-prefix count), `calculate` and `apply`.  Unchecked (`unsafe`) reads
   whose index is not structurally bounded are modelled in `Option`: `none`
   marks a would-be out-of-bounds access; theorems show `none` is unreachable.

3. Specification-level definitions (`jwMatchSpec`, `gmatch`, `scoreSpec`) and
   the theorems relating them to the embedded code.
-/

/-! ## Layer 1: exact binary64 arithmetic on rationals -/

/-- Floor of the base-2 logarithm, by structural recursion on a fuel bound. -/
def log2fuel : Nat → Nat → Nat
  | 0, _ => 0
  | fuel+1, n => if n < 2 then 0 else log2fuel fuel (n / 2) + 1

/-- Floor of the base-2 logarithm of a natural number (`nlog2 0 = 0`). -/
def nlog2 (n : Nat) : Nat := log2fuel n n

/-- For a positive rational `q`, the unique `z` with `2^z ≤ q < 2^(z+1)`. -/
def qlog2 (q : ℚ) : Int :=
  let a : Int := nlog2 q.num.toNat
  let b : Int := nlog2 q.den
  if (2:ℚ) ^ (a - b) ≤ q then a - b else a - b - 1

/-- Round a rational to the nearest integer, ties to even. -/
def rndInt (x : ℚ) : Int :=
  if x - ⌊x⌋ < 1/2 then ⌊x⌋
  else if 1/2 < x - ⌊x⌋ then ⌊x⌋ + 1
  else if ⌊x⌋ % 2 = 0 then ⌊x⌋ else ⌊x⌋ + 1

/-- Round a positive rational to 53 significant bits, ties to even. -/
def froundPos (q : ℚ) : ℚ :=
  ((rndInt (q * (2:ℚ) ^ (52 - qlog2 q)) : ℚ)) * (2:ℚ) ^ (qlog2 q - 52)

/-- Round a rational to the nearest binary64 value (no overflow/underflow
modelled: the scorer only produces magnitudes far inside the finite range). -/
def fround (q : ℚ) : ℚ :=
  if q < 0 then -froundPos (-q) else if q = 0 then 0 else froundPos q

/-- Correctly rounded binary64 addition. -/
def fadd (a b : ℚ) : ℚ := fround (a + b)

/-- Correctly rounded binary64 subtraction. -/
def fsub (a b : ℚ) : ℚ := fround (a - b)

/-- Correctly rounded binary64 multiplication. -/
def fmul (a b : ℚ) : ℚ := fround (a * b)

/-- Correctly rounded binary64 division. -/
def fdiv (a b : ℚ) : ℚ := fround (a / b)

/-- The binary64 value of the literal `0.1` in the source. -/
def c01 : ℚ := fround (1/10)

/-! ## Layer 2: the embedded program

Strings are byte lists (`List Nat`); the Rust code compares raw bytes. -/

/-- The scorer: a reusable scratch buffer of signed integers
(`indices: Vec<isize>` in the source). -/
structure JaroWinkler where
  indices : List Int
deriving DecidableEq

namespace JaroWinkler

/-- `JaroWinkler::with_size`: buffer of `size` slots, each `-1`. -/
def with_size (size : Nat) : JaroWinkler :=
  ⟨List.replicate size (-1)⟩

/-- `JaroWinkler::new`: default capacity 128. -/
def new : JaroWinkler := with_size 128

/-- `JaroWinkler::ensure_capacity`: grow by doubling (or to the exact request
if doubling falls short), refilling with the sentinel `-1`. -/
def ensure_capacity (jw : JaroWinkler) (capacity : Nat) : JaroWinkler :=
  -- new_capacity = current_capacity * 2, raised to capacity if still short,
  -- and the buffer is reallocated filled with -1
  if capacity ≤ jw.indices.length then jw
  else if jw.indices.length * 2 < capacity then ⟨List.replicate capacity (-1)⟩
  else ⟨List.replicate (jw.indices.length * 2) (-1)⟩

/-- The inner loop of `Inner::matches` for one position `i` of `min`: scan the
window of `max` left to right and return the first `j` whose byte equals
`min[i]` and whose flag slot (at buffer index `min.len() + j`) is nonzero. -/
def innerScan (minb maxb : List Nat) (buf : List Int) (i : Nat) : Option Nat :=
  -- range = (max.len() / 2).saturating_sub(1); start = i.saturating_sub(range);
  -- end = max.len().min(i + range + 1); scan start..end left to right
  (List.range' (i - (maxb.length / 2 - 1))
      (min (i + (maxb.length / 2 - 1) + 1) maxb.length - (i - (maxb.length / 2 - 1)))).find?
    fun j => (minb.getD i 0 == maxb.getD j 0) && (buf.getD (minb.length + j) 0 != 0)

/-- The outer loop of `Inner::matches`: `is` is the list of remaining positions
of `min`, `m` the match count so far.  On a match at `(i, j)` the source writes
`i` through the raw cursor `min_indices_ptr` (slot `m` of the buffer) and zeros
the flag slot `min.len() + j`. -/
def matchesAux (minb maxb : List Nat) : List Nat → List Int → Nat → List Int × Nat
  | [], buf, m => (buf, m)
  | i :: is, buf, m =>
    match innerScan minb maxb buf i with
    | none => matchesAux minb maxb is buf m
    | some j => matchesAux minb maxb is ((buf.set m (i : Int)).set (minb.length + j) 0) (m + 1)

/-- `Inner::matches` (`matches` is a Lean keyword, hence the suffix):
returns the updated buffer and the match count. -/
def matchesRun (minb maxb : List Nat) (buf : List Int) : List Int × Nat :=
  matchesAux minb maxb (List.range minb.length) buf 0

/-- The cursor advance in `Inner::transpositions`:
`while *max_flags.get_unchecked(max_index) != 0 { max_index += 1 }`.
The source read is unchecked, so running past the flags region is undefined
behaviour; we return `none` in that case. -/
def findZero (minLen maxLen : Nat) (buf : List Int) (c : Nat) : Option Nat :=
  (List.range' c (maxLen - c)).find? fun k => buf.getD (minLen + k) 0 == 0

/-- `Inner::transpositions` main loop: `n` iterations remain, `idx` is the loop
index into the recorded match slots, `cursor` the flag-scanning index, `t` the
raw mismatch count.  The unchecked reads `min_indices.get_unchecked(i)` (as a
`usize` cast of an `isize`) and `min.get_unchecked(min_index)` are modelled by
the explicit bounds test; `none` marks a would-be out-of-bounds access. -/
def transAux (minb maxb : List Nat) : Nat → List Int → Nat → Nat → Nat → Option (Nat × List Int)
  | 0, buf, _, _, t => some (t, buf)
  | n+1, buf, idx, cursor, t =>
    -- mi = *min_indices.get_unchecked(i) as usize, checked to be a valid index
    if 0 ≤ buf.getD idx 0 ∧ (buf.getD idx 0).toNat < minb.length then
      match findZero minb.length maxb.length buf cursor with
      | none => none
      | some k =>
        transAux minb maxb n ((buf.set idx (-1)).set (minb.length + k) (-1)) (idx+1) (k+1)
          (if minb.getD (buf.getD idx 0).toNat 0 != maxb.getD k 0 then t + 1 else t)
    else none

/-- `Inner::transpositions`: the raw mismatch count halved (`t / 2`). -/
def transpositions (minb maxb : List Nat) (buf : List Int) (m : Nat) : Option (Nat × List Int) :=
  (transAux minb maxb m buf 0 0 0).map fun r => (r.1 / 2, r.2)

/-- `Inner::prefix`: common-prefix length of `min` and `max`, capped at 4. -/
def pfxCount (minb maxb : List Nat) : Nat :=
  (((minb.zip maxb).take 4).takeWhile fun ab => ab.1 == ab.2).length

/-- `JaroWinkler::calculate` on an explicit buffer: returns the score and the
buffer as left by the transposition pass.  The float literals `3.0` and `1.0`
are exactly representable, so they appear as exact rationals. -/
def calculate (minb maxb : List Nat) (buf : List Int) : Option (ℚ × List Int) :=
  let r := matchesRun minb maxb buf
  let m := r.2
  if m = 0 then some (0, r.1)
  else
    match transpositions minb maxb r.1 m with
    | none => none
    | some tb =>
      let p := pfxCount minb maxb
      let min_len : ℚ := fround minb.length
      let max_len : ℚ := fround maxb.length
      let mf : ℚ := fround m
      let tf : ℚ := fround tb.1
      let pf : ℚ := fround p
      let j := fdiv (fadd (fadd (fdiv mf min_len) (fdiv mf max_len)) (fdiv (fsub mf tf) mf)) 3
      some (fadd j (fmul (fmul c01 pf) (fsub 1 j)), tb.2)

/-- `JaroWinkler::apply`: the public entry point. -/
def apply (jw : JaroWinkler) (s1 s2 : List Nat) : Option (ℚ × JaroWinkler) :=
  if s1.isEmpty && s2.isEmpty then some (1, jw)
  else if s1.isEmpty || s2.isEmpty then some (0, jw)
  else
    let jw' := jw.ensure_capacity (s1.length + s2.length)
    let p := if s1.length > s2.length then (s2, s1) else (s1, s2)
    match calculate p.1 p.2 jw'.indices with
    | none => none
    | some qb => some (qb.1, ⟨qb.2⟩)

end JaroWinkler

/-! ## Layer 3: specification-level definitions -/

/-- A buffer is clean when every slot holds the sentinel `-1`. -/
def bufClean (l : List Int) : Prop := ∀ x ∈ l, x = -1

instance (l : List Int) : Decidable (bufClean l) := List.decidableBAll _ l

/-- The matching-window radius as the spec states it:
`range = max(0, len(max)/2 - 1)` with integer floor division. -/
def specRange (maxLen : Nat) : Int := max 0 ((maxLen : Int) / 2 - 1)

/-- The spec's matching window for position `i` of the shorter string:
`j ∈ [max(0, i - range), min(len(max), i + range + 1))`. -/
def inSpecWindow (maxLen i j : Nat) : Prop :=
  max 0 ((i : Int) - specRange maxLen) ≤ (j : Int) ∧
    (j : Int) < min (maxLen : Int) ((i : Int) + specRange maxLen + 1)

instance (maxLen i j : Nat) : Decidable (inSpecWindow maxLen i j) := instDecidableAnd

/-- Specification of the matching pass, following the spec's wording: for each
remaining position `i` of `min` (in order), take the first window position `j`
of `max` with equal byte that is not yet consumed (`cons`), and consume it. -/
def jwMatchSpecAux (minb maxb : List Nat) : List Nat → List Nat → List (Nat × Nat)
  | _, [] => []
  | cons, i :: is =>
    match ((List.range maxb.length).filter fun j => decide (inSpecWindow maxb.length i j)).find?
        (fun j => (minb.getD i 0 == maxb.getD j 0) && !(cons.contains j)) with
    | none => jwMatchSpecAux minb maxb cons is
    | some j => (i, j) :: jwMatchSpecAux minb maxb (j :: cons) is

/-- The spec-level matching: list of matched pairs `(i, j)` in encounter order. -/
def jwMatchSpec (minb maxb : List Nat) : List (Nat × Nat) :=
  jwMatchSpecAux minb maxb [] (List.range minb.length)

/-- Abstract greedy matching over an adjacency `A`: rows are processed in
order; each row takes the first still-free column adjacent to it. -/
def gmatch (A : Nat → Nat → Bool) : List Nat → List Nat → List (Nat × Nat)
  | [], _ => []
  | i :: is, cols =>
    match cols.find? (fun j => A i j) with
    | none => gmatch A is cols
    | some j => (i, j) :: gmatch A is (cols.erase j)

/-- Adjacency of the Jaro matching graph: equal bytes inside the window. -/
def adjB (minb maxb : List Nat) (i j : Nat) : Bool :=
  (minb.getD i 0 == maxb.getD j 0) && decide (inSpecWindow maxb.length i j)

/-- The matched positions of the longer string in ascending order. -/
def sortedColsOf (maxLen : Nat) (M : List (Nat × Nat)) : List Nat :=
  (List.range maxLen).filter fun j => (M.map Prod.snd).contains j

/-- Number of positions at which the paired match lists disagree (the raw
transposition count before halving). -/
def mismCount (minb maxb : List Nat) (rs qs : List Nat) : Nat :=
  ((rs.zip qs).filter fun rq => !(minb.getD rq.1 0 == maxb.getD rq.2 0)).length

/-- The score of one `calculate` call as a pure function of the two byte
strings (`minb` the shorter, `maxb` the longer). -/
def scoreSpec (minb maxb : List Nat) : ℚ :=
  let M := jwMatchSpec minb maxb
  let m := M.length
  if m = 0 then 0
  else
    let t := mismCount minb maxb (M.map Prod.fst) (sortedColsOf maxb.length M) / 2
    let p := JaroWinkler.pfxCount minb maxb
    let min_len : ℚ := fround minb.length
    let max_len : ℚ := fround maxb.length
    let mf : ℚ := fround m
    let tf : ℚ := fround t
    let pf : ℚ := fround p
    let j := fdiv (fadd (fadd (fdiv mf min_len) (fdiv mf max_len)) (fdiv (fsub mf tf) mf)) 3
    fadd j (fmul (fmul c01 pf) (fsub 1 j))

/-- The value returned by `apply`, as a pure function of the two inputs. -/
def scoreOf (s1 s2 : List Nat) : ℚ :=
  if s1.isEmpty && s2.isEmpty then 1
  else if s1.isEmpty || s2.isEmpty then 0
  else if s1.length > s2.length then scoreSpec s2 s1 else scoreSpec s1 s2

/-- Buffer-encoding invariant of the matching pass: the first `rows.length`
slots hold the recorded min-side indices, the rest of the min region is `-1`,
the flag slot of each consumed column is `0` and of each free column `-1`,
and everything past the two regions is `-1`. -/
def Encodes (n₁ n₂ : Nat) (rows cons : List Nat) (buf : List Int) : Prop :=
  n₁ + n₂ ≤ buf.length ∧
  (∀ d, d < rows.length → buf.getD d 0 = (rows.getD d 0 : Int)) ∧
  (∀ d, rows.length ≤ d → d < n₁ → buf.getD d 0 = -1) ∧
  (∀ j, j < n₂ → buf.getD (n₁ + j) 0 = if j ∈ cons then 0 else -1) ∧
  (∀ d, n₁ + n₂ ≤ d → d < buf.length → buf.getD d 0 = -1)

/-- A nonnegative binary64-representable rational: at most 53 significant
bits. -/
def FRep (x : ℚ) : Prop := ∃ (k : ℕ) (z : ℤ), k ≤ 2 ^ 53 ∧ x = (k : ℚ) * (2:ℚ) ^ z

/-- Run a sequence of `apply` calls, keeping the scorer state. -/
def applySeq (jw : JaroWinkler) : List (List Nat × List Nat) → Option JaroWinkler
  | [] => some jw
  | p :: ps => match jw.apply p.1 p.2 with
    | none => none
    | some qb => applySeq qb.2 ps

/-! ## Lemmas about the binary64 rounding model -/

theorem log2fuel_spec : ∀ (fuel n : Nat), n ≤ fuel → 1 ≤ n →
    2 ^ log2fuel fuel n ≤ n ∧ n < 2 ^ (log2fuel fuel n + 1)
  | 0, n, hle, h1 => by omega
  | fuel+1, n, hle, h1 => by
    by_cases h : n < 2
    · have hn : n = 1 := by omega
      subst hn
      simp [log2fuel]
    · have hrec := log2fuel_spec fuel (n / 2) (by omega) (by omega)
      rw [log2fuel, if_neg h]
      rw [pow_succ, pow_succ] at *
      omega

theorem nlog2_spec (n : Nat) (h1 : 1 ≤ n) :
    2 ^ nlog2 n ≤ n ∧ n < 2 ^ (nlog2 n + 1) :=
  log2fuel_spec n n le_rfl h1

theorem zpow_natSub (a b : ℕ) : (2:ℚ) ^ ((a:ℤ) - (b:ℤ)) = (2:ℚ) ^ a / (2:ℚ) ^ b := by
  rw [zpow_sub₀ two_ne_zero, zpow_natCast, zpow_natCast]

theorem qlog2_spec (q : ℚ) (hq : 0 < q) :
    (2:ℚ) ^ qlog2 q ≤ q ∧ q < (2:ℚ) ^ (qlog2 q + 1) := by
  have hnum : 0 < q.num := Rat.num_pos.mpr hq
  have hden : 0 < q.den := q.pos
  have hnn : 1 ≤ q.num.toNat := by omega
  obtain ⟨ha1, ha2⟩ := nlog2_spec q.num.toNat hnn
  obtain ⟨hb1, hb2⟩ := nlog2_spec q.den hden
  set a := nlog2 q.num.toNat with hadef
  set b := nlog2 q.den with hbdef
  have hNq : ((q.num.toNat : ℚ)) = (q.num : ℚ) := by
    have := Int.toNat_of_nonneg hnum.le
    exact_mod_cast congrArg (fun z : ℤ => (z : ℚ)) this
  have hqeq : q = (q.num : ℚ) / (q.den : ℚ) := (Rat.num_div_den q).symm
  have hdpos : (0:ℚ) < (q.den : ℚ) := by exact_mod_cast hden
  have hNpos : (0:ℚ) < (q.num : ℚ) := by exact_mod_cast hnum
  -- upper bound: q < 2^(a+1) / 2^b = 2^((a:ℤ)+1-b)
  have hupper : q < (2:ℚ) ^ ((a:ℤ) + 1 - b) := by
    have h1 : q < ((2:ℚ) ^ (a+1)) / ((2:ℚ) ^ b) := by
      rw [hqeq]
      have hn2 : (q.num : ℚ) < (2:ℚ) ^ (a+1) := by
        rw [← hNq]; exact_mod_cast ha2
      have hd2 : (2:ℚ) ^ b ≤ (q.den : ℚ) := by exact_mod_cast hb1
      have hbpos : (0:ℚ) < (2:ℚ) ^ b := by positivity
      rw [div_lt_div_iff hdpos hbpos]
      calc (q.num : ℚ) * (2:ℚ) ^ b ≤ (q.num : ℚ) * (q.den : ℚ) := by
            apply mul_le_mul_of_nonneg_left hd2 hNpos.le
        _ < (2:ℚ) ^ (a+1) * (q.den : ℚ) := by
            apply mul_lt_mul_of_pos_right hn2 hdpos
    have hcast : ((a:ℤ) + 1 - b) = (((a+1 : ℕ)):ℤ) - (b:ℤ) := by push_cast; ring
    rw [hcast, zpow_natSub]
    exact h1
  -- lower bound: 2^((a:ℤ) - (b+1)) < q
  have hlower : (2:ℚ) ^ ((a:ℤ) - ((b:ℤ) + 1)) < q := by
    have h1 : ((2:ℚ) ^ a) / ((2:ℚ) ^ (b+1)) < q := by
      rw [hqeq]
      have hn2 : (2:ℚ) ^ a ≤ (q.num : ℚ) := by
        rw [← hNq]; exact_mod_cast ha1
      have hd2 : (q.den : ℚ) < (2:ℚ) ^ (b+1) := by exact_mod_cast hb2
      have hbpos : (0:ℚ) < (2:ℚ) ^ (b+1) := by positivity
      rw [div_lt_div_iff hbpos hdpos]
      calc (2:ℚ) ^ a * (q.den : ℚ) < (2:ℚ) ^ a * (2:ℚ) ^ (b+1) := by
            apply mul_lt_mul_of_pos_left hd2 (by positivity)
        _ ≤ (q.num : ℚ) * (2:ℚ) ^ (b+1) := by
            apply mul_le_mul_of_nonneg_right hn2 (by positivity)
    have hcast : ((a:ℤ) - ((b:ℤ)+1)) = ((a:ℕ):ℤ) - (((b+1 : ℕ)):ℤ) := by push_cast; ring
    rw [hcast, zpow_natSub]
    exact h1
  rw [qlog2]
  simp only [← hadef, ← hbdef]
  split_ifs with h
  · refine ⟨h, ?_⟩
    have : (a:ℤ) - b + 1 = (a:ℤ) + 1 - b := by ring
    rw [this]
    exact hupper
  · constructor
    · have : (a:ℤ) - b - 1 = (a:ℤ) - ((b:ℤ)+1) := by ring
      rw [this]
      exact hlower.le
    · have : (a:ℤ) - b - 1 + 1 = (a:ℤ) - b := by ring
      rw [this]
      exact lt_of_not_le h

theorem two_zpow_pos (m : ℤ) : (0:ℚ) < (2:ℚ) ^ m := by positivity

theorem two_zpow_mono {m n : ℤ} (h : m ≤ n) : (2:ℚ) ^ m ≤ (2:ℚ) ^ n :=
  zpow_le_zpow_right₀ (by norm_num) h

theorem qlog2_unique (q : ℚ) (hq : 0 < q) (c : ℤ) (h1 : (2:ℚ) ^ c ≤ q)
    (h2 : q < (2:ℚ) ^ (c + 1)) : qlog2 q = c := by
  obtain ⟨g1, g2⟩ := qlog2_spec q hq
  by_contra hne
  rcases lt_or_gt_of_ne hne with hlt | hgt
  · have : (2:ℚ) ^ (qlog2 q + 1) ≤ (2:ℚ) ^ c := two_zpow_mono (by omega)
    linarith
  · have : (2:ℚ) ^ (c + 1) ≤ (2:ℚ) ^ (qlog2 q) := two_zpow_mono (by omega)
    linarith

theorem rndInt_cases (x : ℚ) : rndInt x = ⌊x⌋ ∨ rndInt x = ⌊x⌋ + 1 := by
  unfold rndInt
  split_ifs <;> simp

theorem rndInt_le (x : ℚ) : (rndInt x : ℚ) ≤ x + 1/2 := by
  have hfl : (⌊x⌋ : ℚ) ≤ x := Int.floor_le x
  have hfl2 : x < ⌊x⌋ + 1 := Int.lt_floor_add_one x
  unfold rndInt
  split_ifs with h1 h2 h3 <;> push_cast <;> linarith

theorem le_rndInt (x : ℚ) : x - 1/2 ≤ (rndInt x : ℚ) := by
  have hfl : (⌊x⌋ : ℚ) ≤ x := Int.floor_le x
  have hfl2 : x < ⌊x⌋ + 1 := Int.lt_floor_add_one x
  unfold rndInt
  split_ifs with h1 h2 h3 <;> push_cast <;> linarith

theorem rndInt_intCast (k : ℤ) : rndInt (k : ℚ) = k := by
  unfold rndInt
  rw [Int.floor_intCast]
  simp

theorem rndInt_mono {x y : ℚ} (h : x ≤ y) : rndInt x ≤ rndInt y := by
  have hf : ⌊x⌋ ≤ ⌊y⌋ := Int.floor_mono h
  rcases lt_or_eq_of_le hf with hlt | heq
  · have h1 := rndInt_cases x
    have h2 := rndInt_cases y
    omega
  · unfold rndInt
    rw [← heq]
    split_ifs <;> first | omega | linarith

theorem froundPos_m_bounds (q : ℚ) (hq : 0 < q) :
    (2:ℚ) ^ (52:ℤ) ≤ q * (2:ℚ) ^ (52 - qlog2 q) ∧
      q * (2:ℚ) ^ (52 - qlog2 q) < (2:ℚ) ^ (53:ℤ) := by
  obtain ⟨h1, h2⟩ := qlog2_spec q hq
  have hp : (0:ℚ) < (2:ℚ) ^ (52 - qlog2 q) := two_zpow_pos _
  constructor
  · have hm := mul_le_mul_of_nonneg_right h1 hp.le
    have he : (2:ℚ) ^ (qlog2 q) * (2:ℚ) ^ (52 - qlog2 q) = (2:ℚ) ^ (52:ℤ) := by
      rw [← zpow_add₀ (two_ne_zero (α := ℚ))]
      congr 1
      ring
    linarith
  · have hm := mul_lt_mul_of_pos_right h2 hp
    have he : (2:ℚ) ^ (qlog2 q + 1) * (2:ℚ) ^ (52 - qlog2 q) = (2:ℚ) ^ (53:ℤ) := by
      rw [← zpow_add₀ (two_ne_zero (α := ℚ))]
      congr 1
      ring
    linarith

theorem rndInt_scaled_bounds (q : ℚ) (hq : 0 < q) :
    (2:ℤ) ^ 52 ≤ rndInt (q * (2:ℚ) ^ (52 - qlog2 q)) ∧
      rndInt (q * (2:ℚ) ^ (52 - qlog2 q)) ≤ (2:ℤ) ^ 53 := by
  obtain ⟨h1, h2⟩ := froundPos_m_bounds q hq
  set m := q * (2:ℚ) ^ (52 - qlog2 q) with hm
  have hle := rndInt_le m
  have hge := le_rndInt m
  have e52 : (2:ℚ) ^ (52:ℤ) = (((2:ℤ) ^ 52 : ℤ) : ℚ) := by norm_num
  have e53 : (2:ℚ) ^ (53:ℤ) = (((2:ℤ) ^ 53 : ℤ) : ℚ) := by norm_num
  constructor
  · have : (((2:ℤ) ^ 52 - 1 : ℤ) : ℚ) < (rndInt m : ℚ) := by push_cast; rw [e52] at h1; push_cast at h1; linarith
    have := Int.cast_lt.mp this
    omega
  · have : (rndInt m : ℚ) < (((2:ℤ) ^ 53 + 1 : ℤ) : ℚ) := by push_cast; rw [e53] at h2; push_cast at h2; linarith
    have := Int.cast_lt.mp this
    omega

theorem froundPos_bounds (q : ℚ) (hq : 0 < q) :
    (2:ℚ) ^ (qlog2 q) ≤ froundPos q ∧ froundPos q ≤ (2:ℚ) ^ (qlog2 q + 1) := by
  obtain ⟨h1, h2⟩ := rndInt_scaled_bounds q hq
  have hp : (0:ℚ) < (2:ℚ) ^ (qlog2 q - 52) := two_zpow_pos _
  have c1 : (((2:ℤ) ^ 52 : ℤ) : ℚ) ≤ (rndInt (q * (2:ℚ) ^ (52 - qlog2 q)) : ℚ) := by
    exact_mod_cast h1
  have c2 : (rndInt (q * (2:ℚ) ^ (52 - qlog2 q)) : ℚ) ≤ (((2:ℤ) ^ 53 : ℤ) : ℚ) := by
    exact_mod_cast h2
  have e52 : (((2:ℤ) ^ 52 : ℤ) : ℚ) = (2:ℚ) ^ (52:ℤ) := by norm_num
  have e53 : (((2:ℤ) ^ 53 : ℤ) : ℚ) = (2:ℚ) ^ (53:ℤ) := by norm_num
  rw [e52] at c1
  rw [e53] at c2
  unfold froundPos
  constructor
  · have := mul_le_mul_of_nonneg_right c1 hp.le
    have he : (2:ℚ) ^ (52:ℤ) * (2:ℚ) ^ (qlog2 q - 52) = (2:ℚ) ^ (qlog2 q) := by
      rw [← zpow_add₀ (two_ne_zero (α := ℚ))]
      congr 1
      ring
    linarith
  · have := mul_le_mul_of_nonneg_right c2 hp.le
    have he : (2:ℚ) ^ (53:ℤ) * (2:ℚ) ^ (qlog2 q - 52) = (2:ℚ) ^ (qlog2 q + 1) := by
      rw [← zpow_add₀ (two_ne_zero (α := ℚ))]
      congr 1
      ring
    linarith

theorem froundPos_rep (q : ℚ) (hq : 0 < q) : FRep (froundPos q) := by
  obtain ⟨h1, h2⟩ := rndInt_scaled_bounds q hq
  refine ⟨(rndInt (q * (2:ℚ) ^ (52 - qlog2 q))).toNat, qlog2 q - 52, ?_, ?_⟩
  · omega
  · unfold froundPos
    congr 1
    have : ((rndInt (q * (2:ℚ) ^ (52 - qlog2 q))).toNat : ℤ) = rndInt (q * (2:ℚ) ^ (52 - qlog2 q)) := by omega
    exact_mod_cast congrArg (fun z : ℤ => (z : ℚ)) this.symm

theorem fround_zero : fround 0 = 0 := by
  unfold fround
  norm_num

theorem fround_of_pos {q : ℚ} (hq : 0 < q) : fround q = froundPos q := by
  unfold fround
  rw [if_neg (by linarith), if_neg hq.ne.symm]

theorem fround_pos {q : ℚ} (hq : 0 < q) : 0 < fround q := by
  rw [fround_of_pos hq]
  have := (froundPos_bounds q hq).1
  have := two_zpow_pos (qlog2 q)
  linarith

theorem fround_nonneg {q : ℚ} (hq : 0 ≤ q) : 0 ≤ fround q := by
  rcases eq_or_lt_of_le hq with h | h
  · rw [← h, fround_zero]
  · exact (fround_pos h).le

theorem fround_mono {x y : ℚ} (hx : 0 ≤ x) (hxy : x ≤ y) : fround x ≤ fround y := by
  rcases eq_or_lt_of_le hx with h | hx
  · rw [← h, fround_zero]
    refine fround_nonneg ?_
    rw [← h] at hxy
    exact hxy
  · have hy : 0 < y := lt_of_lt_of_le hx hxy
    rw [fround_of_pos hx, fround_of_pos hy]
    have he : qlog2 x ≤ qlog2 y := by
      by_contra hc
      have h1 := (qlog2_spec x hx).1
      have h2 := (qlog2_spec y hy).2
      have : (2:ℚ) ^ (qlog2 y + 1) ≤ (2:ℚ) ^ (qlog2 x) := two_zpow_mono (by omega)
      linarith
    rcases eq_or_lt_of_le he with heq | hlt
    · unfold froundPos
      rw [← heq]
      have hmul : x * (2:ℚ) ^ (52 - qlog2 x) ≤ y * (2:ℚ) ^ (52 - qlog2 x) :=
        mul_le_mul_of_nonneg_right hxy (two_zpow_pos _).le
      have hr : rndInt (x * (2:ℚ) ^ (52 - qlog2 x)) ≤ rndInt (y * (2:ℚ) ^ (52 - qlog2 x)) :=
        rndInt_mono hmul
      have hcast : ((rndInt (x * (2:ℚ) ^ (52 - qlog2 x)) : ℤ) : ℚ) ≤
          ((rndInt (y * (2:ℚ) ^ (52 - qlog2 x)) : ℤ) : ℚ) := by exact_mod_cast hr
      exact mul_le_mul_of_nonneg_right hcast (two_zpow_pos _).le
    · have b1 := (froundPos_bounds x hx).2
      have b2 := (froundPos_bounds y hy).1
      have : (2:ℚ) ^ (qlog2 x + 1) ≤ (2:ℚ) ^ (qlog2 y) := two_zpow_mono (by omega)
      linarith

theorem fround_fix_aux (k : ℕ) (z : ℤ) (hk1 : 1 ≤ k) (hk2 : k < 2 ^ 53) :
    fround ((k : ℚ) * (2:ℚ) ^ z) = (k : ℚ) * (2:ℚ) ^ z := by
  set x : ℚ := (k : ℚ) * (2:ℚ) ^ z with hxdef
  have hkq : (1:ℚ) ≤ (k:ℚ) := by exact_mod_cast hk1
  have hx : 0 < x := by
    have := two_zpow_pos z
    calc (0:ℚ) < 1 * (2:ℚ) ^ z := by linarith
      _ ≤ x := by rw [hxdef]; exact mul_le_mul_of_nonneg_right hkq (two_zpow_pos z).le
  obtain ⟨hL1, hL2⟩ := nlog2_spec k hk1
  set L := nlog2 k with hL
  have hL53 : L < 53 := by
    by_contra hc
    have : 2 ^ 53 ≤ 2 ^ L := Nat.pow_le_pow_right (by norm_num) (by omega)
    omega
  have hql : qlog2 x = (L : ℤ) + z := by
    apply qlog2_unique x hx
    · have h1 : ((2:ℚ)) ^ (L:ℕ) ≤ (k:ℚ) := by exact_mod_cast hL1
      have : (2:ℚ) ^ ((L:ℤ) + z) = (2:ℚ) ^ (L:ℕ) * (2:ℚ) ^ z := by
        rw [← zpow_natCast (2:ℚ) L, ← zpow_add₀ (two_ne_zero (α := ℚ))]
      rw [this, hxdef]
      exact mul_le_mul_of_nonneg_right h1 (two_zpow_pos z).le
    · have h2 : (k:ℚ) < ((2:ℚ)) ^ (L+1:ℕ) := by exact_mod_cast hL2
      have : (2:ℚ) ^ ((L:ℤ) + z + 1) = (2:ℚ) ^ (L+1:ℕ) * (2:ℚ) ^ z := by
        rw [← zpow_natCast (2:ℚ) (L+1), ← zpow_add₀ (two_ne_zero (α := ℚ))]
        congr 1
        push_cast
        ring
      rw [this, hxdef]
      exact mul_lt_mul_of_pos_right h2 (two_zpow_pos z)
  rw [fround_of_pos hx]
  unfold froundPos
  rw [hql]
  have hm : x * (2:ℚ) ^ (52 - ((L:ℤ) + z)) = ((k * 2 ^ (52 - L) : ℕ) : ℚ) := by
    rw [hxdef]
    push_cast
    rw [mul_assoc, ← zpow_natCast (2:ℚ) (52 - L), ← zpow_add₀ (two_ne_zero (α := ℚ))]
    congr 2
    omega
  rw [hm]
  have : ((k * 2 ^ (52 - L) : ℕ) : ℚ) = (((k * 2 ^ (52 - L) : ℕ) : ℤ) : ℚ) := by push_cast; ring
  rw [this, rndInt_intCast]
  rw [← this, hxdef]
  push_cast
  rw [mul_assoc, ← zpow_natCast (2:ℚ) (52 - L), ← zpow_add₀ (two_ne_zero (α := ℚ))]
  congr 2
  omega

theorem fround_fix {x : ℚ} (h : FRep x) : fround x = x := by
  obtain ⟨k, z, hk, hx⟩ := h
  rcases Nat.eq_zero_or_pos k with h0 | h1
  · subst h0
    simp at hx
    rw [hx, fround_zero]
  · rcases eq_or_lt_of_le hk with heq | hlt
    · have : x = ((2^52 : ℕ) : ℚ) * (2:ℚ) ^ (z + 1) := by
        rw [hx, heq]
        push_cast
        rw [zpow_add₀ (two_ne_zero (α := ℚ))]
        ring
      rw [this]
      exact fround_fix_aux (2^52) (z+1) (by norm_num) (by norm_num)
    · rw [hx]
      exact fround_fix_aux k z h1 hlt

theorem fround_rep {q : ℚ} (hq : 0 ≤ q) : FRep (fround q) := by
  rcases eq_or_lt_of_le hq with h | h
  · rw [← h, fround_zero]
    exact ⟨0, 0, by norm_num, by norm_num⟩
  · rw [fround_of_pos h]
    exact froundPos_rep q h

theorem fround_natCast (n : ℕ) (h : n ≤ 2 ^ 53) : fround (n : ℚ) = (n : ℚ) :=
  fround_fix ⟨n, 0, h, by norm_num⟩


theorem frep_one_sub {j : ℚ} (h : FRep j) (h1 : 1/2 ≤ j) (h2 : j ≤ 1) : FRep (1 - j) := by
  obtain ⟨k, z, hk, hj⟩ := h
  have hk0 : 1 ≤ k := by
    by_contra hc
    have hz0 : k = 0 := by omega
    subst hz0
    simp at hj
    rw [hj] at h1
    norm_num at h1
  have hz : -54 ≤ z := by
    by_contra hc
    have hb : (2:ℚ) ^ z ≤ (2:ℚ) ^ (-55 : ℤ) := two_zpow_mono (by omega)
    have hkq : (k:ℚ) ≤ ((2^53 : ℕ) : ℚ) := by exact_mod_cast hk
    have hj4 : j ≤ ((2^53 : ℕ) : ℚ) * (2:ℚ) ^ (-55 : ℤ) := by
      rw [hj]
      exact mul_le_mul hkq hb (two_zpow_pos z).le (by positivity)
    have hv1 : (2:ℚ) ^ (-55 : ℤ) = ((2:ℚ) ^ (55:ℤ))⁻¹ := by
      rw [← zpow_neg]
    have hv2 : (2:ℚ) ^ (55 : ℤ) = (((2:ℤ)^55 : ℤ) : ℚ) := by norm_num
    rw [hv1, hv2] at hj4
    norm_num at hj4
    linarith
  set e54 : ℕ := (z + 54).toNat with he54
  have hze : (e54 : ℤ) = z + 54 := by omega
  have h54 : (2:ℚ) ^ (54:ℤ) = ((2^54 : ℕ) : ℚ) := by norm_num
  have hj54 : j * (2:ℚ) ^ (54 : ℤ) = ((k * 2 ^ e54 : ℕ) : ℚ) := by
    calc j * (2:ℚ) ^ (54:ℤ) = (k:ℚ) * ((2:ℚ) ^ z * (2:ℚ) ^ (54:ℤ)) := by rw [hj]; ring
      _ = (k:ℚ) * (2:ℚ) ^ ((e54:ℤ)) := by
          rw [← zpow_add₀ (two_ne_zero (α := ℚ)), hze]
      _ = (k:ℚ) * (2:ℚ) ^ (e54:ℕ) := by rw [zpow_natCast]
      _ = ((k * 2 ^ e54 : ℕ) : ℚ) := by push_cast; ring
  have hup : (k * 2 ^ e54 : ℕ) ≤ 2 ^ 54 := by
    have hm : j * (2:ℚ) ^ (54:ℤ) ≤ 1 * (2:ℚ) ^ (54:ℤ) :=
      mul_le_mul_of_nonneg_right h2 (two_zpow_pos _).le
    rw [hj54, one_mul, h54] at hm
    exact_mod_cast hm
  have hdown : 2 ^ 53 ≤ (k * 2 ^ e54 : ℕ) := by
    have hhalf : (1/2:ℚ) * (2:ℚ) ^ (54:ℤ) = ((2^53 : ℕ) : ℚ) := by
      rw [h54]
      push_cast
      ring
    have hm : (1/2:ℚ) * (2:ℚ) ^ (54:ℤ) ≤ j * (2:ℚ) ^ (54:ℤ) :=
      mul_le_mul_of_nonneg_right h1 (two_zpow_pos _).le
    rw [hj54, hhalf] at hm
    exact_mod_cast hm
  refine ⟨2 ^ 54 - k * 2 ^ e54, -54, by omega, ?_⟩
  have hcast : ((2 ^ 54 - k * 2 ^ e54 : ℕ) : ℚ) = ((2^54 : ℕ) : ℚ) - ((k * 2 ^ e54 : ℕ) : ℚ) :=
    Nat.cast_sub hup
  rw [hcast, ← hj54, ← h54]
  have hinv : (2:ℚ) ^ (54:ℤ) * (2:ℚ) ^ (-54:ℤ) = 1 := by
    rw [← zpow_add₀ (two_ne_zero (α := ℚ))]
    norm_num
  linear_combination (1 - j) * hinv

/-! ## List helpers -/

theorem pairwise_lt_range' : ∀ (s n : ℕ), (List.range' s n).Pairwise (· < ·)
  | _, 0 => List.Pairwise.nil
  | s, n+1 => by
    rw [List.range'_succ]
    exact List.Pairwise.cons
      (fun y hy => lt_of_lt_of_le (Nat.lt_succ_self s) (List.mem_range'_1.mp hy).1)
      (pairwise_lt_range' (s+1) n)

theorem find?_sorted_eq_some {l : List ℕ} {p : ℕ → Bool} (hasc : l.Pairwise (· < ·)) {x : ℕ} :
    l.find? p = some x ↔ (x ∈ l ∧ p x = true ∧ ∀ y ∈ l, p y = true → x ≤ y) := by
  induction l with
  | nil => simp
  | cons a l ih =>
    have ha := (List.pairwise_cons.mp hasc).1
    have hasc' := (List.pairwise_cons.mp hasc).2
    by_cases hpa : p a = true
    · rw [List.find?_cons_of_pos _ hpa]
      constructor
      · intro h
        injection h with h
        subst h
        refine ⟨List.mem_cons_self _ _, hpa, ?_⟩
        intro y hy _
        rcases List.mem_cons.mp hy with rfl | hyl
        · exact le_rfl
        · exact (ha y hyl).le
      · rintro ⟨hx, hpx, hmin⟩
        have hxa : x ≤ a := hmin a (List.mem_cons_self _ _) hpa
        rcases List.mem_cons.mp hx with rfl | hxl
        · rfl
        · exact absurd (ha x hxl) (by omega)
    · rw [List.find?_cons_of_neg _ hpa, ih hasc']
      constructor
      · rintro ⟨hx, hpx, hmin⟩
        refine ⟨List.mem_cons_of_mem _ hx, hpx, ?_⟩
        intro y hy hpy
        rcases List.mem_cons.mp hy with rfl | hyl
        · exact absurd hpy hpa
        · exact hmin y hyl hpy
      · rintro ⟨hx, hpx, hmin⟩
        rcases List.mem_cons.mp hx with rfl | hxl
        · exact absurd hpx hpa
        · exact ⟨hxl, hpx, fun y hy hpy => hmin y (List.mem_cons_of_mem _ hy) hpy⟩

theorem find?_sorted_congr {l₁ l₂ : List ℕ} {p₁ p₂ : ℕ → Bool}
    (h₁ : l₁.Pairwise (· < ·)) (h₂ : l₂.Pairwise (· < ·))
    (hmem : ∀ x, (x ∈ l₁ ∧ p₁ x = true) ↔ (x ∈ l₂ ∧ p₂ x = true)) :
    l₁.find? p₁ = l₂.find? p₂ := by
  cases hf : l₁.find? p₁ with
  | none =>
    symm
    rw [List.find?_eq_none]
    intro x hx hpx
    have hh := (hmem x).mpr ⟨hx, hpx⟩
    rw [List.find?_eq_none] at hf
    exact hf x hh.1 hh.2
  | some x =>
    symm
    rw [find?_sorted_eq_some h₂]
    rw [find?_sorted_eq_some h₁] at hf
    obtain ⟨hx, hpx, hmin⟩ := hf
    obtain ⟨hx2, hp2⟩ := (hmem x).mp ⟨hx, hpx⟩
    refine ⟨hx2, hp2, ?_⟩
    intro y hy hpy
    exact hmin y ((hmem y).mpr ⟨hy, hpy⟩).1 ((hmem y).mpr ⟨hy, hpy⟩).2

theorem window_mem (maxLen i j : Nat) (hi : i < maxLen) :
    (j ∈ List.range' (i - (maxLen / 2 - 1))
        (min (i + (maxLen / 2 - 1) + 1) maxLen - (i - (maxLen / 2 - 1)))) ↔
      inSpecWindow maxLen i j := by
  rw [List.mem_range'_1]
  unfold inSpecWindow specRange
  omega

theorem getD_set_self (l : List Int) (n : ℕ) (a : Int) (h : n < l.length) :
    (l.set n a).getD n 0 = a := by
  simp [List.getD_eq_getElem?_getD, List.getElem?_set_self (l := l) (by simpa using h)]

theorem getD_set_ne (l : List Int) (m n : ℕ) (a : Int) (h : m ≠ n) :
    (l.set m a).getD n 0 = l.getD n 0 := by
  simp [List.getD_eq_getElem?_getD, List.getElem?_set_ne h]

theorem getD_append_left {l l' : List ℕ} {d : ℕ} (h : d < l.length) :
    (l ++ l').getD d 0 = l.getD d 0 := by
  simp [List.getD_eq_getElem?_getD, List.getElem?_append_left h]

theorem getD_append_len (l : List ℕ) (a : ℕ) :
    (l ++ [a]).getD l.length 0 = a := by
  simp [List.getD_eq_getElem?_getD]

theorem bufClean_replicate (n : ℕ) : bufClean (List.replicate n (-1)) := by
  intro x hx
  exact List.eq_of_mem_replicate hx

theorem Encodes_congr_cons {n₁ n₂ : ℕ} {rows c c' : List ℕ} {buf : List Int}
    (h : ∀ j, j ∈ c ↔ j ∈ c') (henc : Encodes n₁ n₂ rows c buf) :
    Encodes n₁ n₂ rows c' buf := by
  obtain ⟨h1, h2, h3, h4, h5⟩ := henc
  refine ⟨h1, h2, h3, ?_, h5⟩
  intro j hj
  rw [h4 j hj]
  by_cases hc : j ∈ c
  · rw [if_pos hc, if_pos ((h j).mp hc)]
  · rw [if_neg hc, if_neg (fun hc2 => hc ((h j).mpr hc2))]

theorem Encodes_init {n₁ n₂ : ℕ} {buf : List Int} (hclean : bufClean buf)
    (hlen : n₁ + n₂ ≤ buf.length) : Encodes n₁ n₂ [] [] buf := by
  have hget : ∀ d, d < buf.length → buf.getD d 0 = -1 := by
    intro d hd
    rw [List.getD_eq_getElem?_getD, List.getElem?_eq_getElem hd, Option.getD_some]
    exact hclean _ (List.getElem_mem hd)
  refine ⟨hlen, ?_, ?_, ?_, ?_⟩
  · intro d hd
    simp at hd
  · intro d _ hd
    exact hget d (by omega)
  · intro j hj
    rw [if_neg (List.not_mem_nil j)]
    exact hget (n₁ + j) (by omega)
  · intro d _ hd
    exact hget d hd

theorem Encodes_step {n₁ n₂ : ℕ} {rows cons : List ℕ} {buf : List Int} {v j : ℕ}
    (henc : Encodes n₁ n₂ rows cons buf) (hrl : rows.length < n₁)
    (hj : j < n₂) (hjc : j ∉ cons) :
    Encodes n₁ n₂ (rows ++ [v]) (j :: cons)
      ((buf.set rows.length (v : Int)).set (n₁ + j) 0) := by
  obtain ⟨h1, h2, h3, h4, h5⟩ := henc
  have hrlb : rows.length < buf.length := by omega
  have hjb : n₁ + j < buf.length := by omega
  have hlen2 : ((buf.set rows.length (v : Int)).set (n₁ + j) 0).length = buf.length := by
    simp
  have hls : (buf.set rows.length (v : Int)).length = buf.length := by
    simp
  refine ⟨by omega, ?_, ?_, ?_, ?_⟩
  · intro d hd
    rw [List.length_append, List.length_singleton] at hd
    rcases Nat.lt_or_ge d rows.length with hlt | hge
    · rw [getD_set_ne _ _ _ _ (by omega), getD_set_ne _ _ _ _ (by omega),
        h2 d hlt, getD_append_left hlt]
    · have hd2 : d = rows.length := by omega
      subst hd2
      rw [getD_set_ne _ _ _ _ (by omega), getD_set_self _ _ _ hrlb, getD_append_len]
  · intro d hd1 hd2
    rw [List.length_append, List.length_singleton] at hd1
    rw [getD_set_ne _ _ _ _ (by omega), getD_set_ne _ _ _ _ (by omega)]
    exact h3 d (by omega) hd2
  · intro j' hj'
    by_cases hjj : j' = j
    · subst hjj
      rw [getD_set_self _ _ _ (by omega)]
      rw [if_pos (List.mem_cons_self _ _)]
    · rw [getD_set_ne _ _ _ _ (by omega), getD_set_ne _ _ _ _ (by omega), h4 j' hj']
      by_cases hc : j' ∈ cons
      · rw [if_pos hc, if_pos (List.mem_cons_of_mem _ hc)]
      · rw [if_neg hc, if_neg ?_]
        intro hmem
        rcases List.mem_cons.mp hmem with h | h
        · exact hjj h
        · exact hc h
  · intro d hd1 hd2
    rw [hlen2] at hd2
    rw [getD_set_ne _ _ _ _ (by omega), getD_set_ne _ _ _ _ (by omega)]
    exact h5 d hd1 hd2

theorem inSpecWindow_lt {maxLen i j : ℕ} (h : inSpecWindow maxLen i j) : j < maxLen := by
  unfold inSpecWindow specRange at h
  omega

theorem innerScan_spec {minb maxb : List Nat} {buf : List Int} {rows cons : List ℕ} {i : ℕ}
    (henc : Encodes minb.length maxb.length rows cons buf) (hi : i < maxb.length) :
    JaroWinkler.innerScan minb maxb buf i =
      ((List.range maxb.length).filter fun j => decide (inSpecWindow maxb.length i j)).find?
        (fun j => (minb.getD i 0 == maxb.getD j 0) && !(cons.contains j)) := by
  obtain ⟨hl, h2, h3, h4, h5⟩ := henc
  unfold JaroWinkler.innerScan
  apply find?_sorted_congr (pairwise_lt_range' _ _)
  · rw [List.range_eq_range']
    exact (pairwise_lt_range' 0 maxb.length).filter _
  · intro x
    constructor
    · rintro ⟨hxw, hpx⟩
      have hw : inSpecWindow maxb.length i x := (window_mem maxb.length i x hi).mp hxw
      have hxn : x < maxb.length := inSpecWindow_lt hw
      rw [Bool.and_eq_true] at hpx
      obtain ⟨hb, hf⟩ := hpx
      have hfv := h4 x hxn
      have hxc : x ∉ cons := by
        intro hmem
        rw [if_pos hmem] at hfv
        rw [bne_iff_ne] at hf
        exact hf hfv
      refine ⟨List.mem_filter.mpr ⟨List.mem_range.mpr hxn, decide_eq_true hw⟩, ?_⟩
      rw [Bool.and_eq_true]
      refine ⟨hb, ?_⟩
      simp [hxc]
    · rintro ⟨hxf, hpx⟩
      obtain ⟨hxr, hxw⟩ := List.mem_filter.mp hxf
      have hw : inSpecWindow maxb.length i x := of_decide_eq_true hxw
      have hxn : x < maxb.length := inSpecWindow_lt hw
      rw [Bool.and_eq_true] at hpx
      obtain ⟨hb, hf⟩ := hpx
      have hxc : x ∉ cons := by
        intro hmem
        simp [hmem] at hf
      refine ⟨(window_mem maxb.length i x hi).mpr hw, ?_⟩
      rw [Bool.and_eq_true]
      refine ⟨hb, ?_⟩
      rw [bne_iff_ne, h4 x hxn, if_neg hxc]
      norm_num

theorem matchesAux_cons_none {minb maxb : List Nat} {buf : List Int} {i m : ℕ} {is : List ℕ}
    (h : JaroWinkler.innerScan minb maxb buf i = none) :
    JaroWinkler.matchesAux minb maxb (i :: is) buf m =
      JaroWinkler.matchesAux minb maxb is buf m := by
  simp [JaroWinkler.matchesAux, h]

theorem matchesAux_cons_some {minb maxb : List Nat} {buf : List Int} {i m j : ℕ} {is : List ℕ}
    (h : JaroWinkler.innerScan minb maxb buf i = some j) :
    JaroWinkler.matchesAux minb maxb (i :: is) buf m =
      JaroWinkler.matchesAux minb maxb is ((buf.set m (i : Int)).set (minb.length + j) 0) (m + 1) := by
  simp [JaroWinkler.matchesAux, h]

theorem jwMatchSpecAux_cons_none {minb maxb : List Nat} {cons : List ℕ} {i : ℕ} {is : List ℕ}
    (h : ((List.range maxb.length).filter fun j => decide (inSpecWindow maxb.length i j)).find?
        (fun j => (minb.getD i 0 == maxb.getD j 0) && !(cons.contains j)) = none) :
    jwMatchSpecAux minb maxb cons (i :: is) = jwMatchSpecAux minb maxb cons is := by
  simp only [jwMatchSpecAux, h]

theorem jwMatchSpecAux_cons_some {minb maxb : List Nat} {cons : List ℕ} {i j : ℕ} {is : List ℕ}
    (h : ((List.range maxb.length).filter fun j => decide (inSpecWindow maxb.length i j)).find?
        (fun j => (minb.getD i 0 == maxb.getD j 0) && !(cons.contains j)) = some j) :
    jwMatchSpecAux minb maxb cons (i :: is) = (i, j) :: jwMatchSpecAux minb maxb (j :: cons) is := by
  simp only [jwMatchSpecAux, h]

theorem matchesAux_sim (minb maxb : List Nat) (hmm : minb.length ≤ maxb.length) :
    ∀ (c u : ℕ) (buf : List Int) (rows cons : List ℕ),
    u + c ≤ minb.length → rows.length ≤ u →
    Encodes minb.length maxb.length rows cons buf →
    ∃ buf',
      JaroWinkler.matchesAux minb maxb (List.range' u c) buf rows.length =
        (buf', rows.length + (jwMatchSpecAux minb maxb cons (List.range' u c)).length) ∧
      Encodes minb.length maxb.length
        (rows ++ (jwMatchSpecAux minb maxb cons (List.range' u c)).map Prod.fst)
        ((jwMatchSpecAux minb maxb cons (List.range' u c)).map Prod.snd ++ cons) buf' := by
  intro c
  induction c with
  | zero =>
    intro u buf rows cons h1 h2 henc
    refine ⟨buf, ?_, ?_⟩
    · simp [JaroWinkler.matchesAux, jwMatchSpecAux]
    · simpa [jwMatchSpecAux] using henc
  | succ c ih =>
    intro u buf rows cons h1 h2 henc
    rw [List.range'_succ]
    have hiu : u < maxb.length := by omega
    have hscan := innerScan_spec henc hiu (i := u)
    cases hfind : ((List.range maxb.length).filter fun j =>
        decide (inSpecWindow maxb.length u j)).find?
        (fun j => (minb.getD u 0 == maxb.getD j 0) && !(cons.contains j)) with
    | none =>
      rw [matchesAux_cons_none (hscan.trans hfind), jwMatchSpecAux_cons_none hfind]
      exact ih (u+1) buf rows cons (by omega) (by omega) henc
    | some j =>
      rw [matchesAux_cons_some (hscan.trans hfind), jwMatchSpecAux_cons_some hfind]
      have hjmem := List.mem_of_find?_eq_some hfind
      have hjpred := List.find?_some hfind
      obtain ⟨hjr, _⟩ := List.mem_filter.mp hjmem
      have hjn : j < maxb.length := List.mem_range.mp hjr
      have hjcons : j ∉ cons := by
        rw [Bool.and_eq_true] at hjpred
        have h2' := hjpred.2
        simp at h2'
        exact h2'
      have hrl : rows.length < minb.length := by omega
      have hstep := Encodes_step (v := u) henc hrl hjn hjcons
      obtain ⟨buf', heq, henc'⟩ :=
        ih (u+1) _ (rows ++ [u]) (j :: cons) (by omega) (by simp; omega) hstep
      simp only [List.length_append, List.length_singleton] at heq
      refine ⟨buf', ?_, ?_⟩
      · rw [heq]
        congr 1
        simp only [List.length_cons]
        omega
      · have hr : (rows ++ [u]) ++ (jwMatchSpecAux minb maxb (j :: cons)
            (List.range' (u+1) c)).map Prod.fst =
            rows ++ List.map Prod.fst ((u, j) :: jwMatchSpecAux minb maxb (j :: cons)
              (List.range' (u+1) c)) := by
          simp
        rw [hr] at henc'
        apply Encodes_congr_cons
          (c := (jwMatchSpecAux minb maxb (j :: cons)
            (List.range' (u+1) c)).map Prod.snd ++ (j :: cons)) ?_ henc'
        intro x
        simp
        tauto

theorem jwMatchSpecAux_props (minb maxb : List Nat) :
    ∀ (is cons : List ℕ),
      ((jwMatchSpecAux minb maxb cons is).map Prod.fst).Sublist is ∧
      (∀ p ∈ jwMatchSpecAux minb maxb cons is, p.2 < maxb.length ∧ p.2 ∉ cons) ∧
      ((jwMatchSpecAux minb maxb cons is).map Prod.snd).Nodup := by
  intro is
  induction is with
  | nil =>
    intro cons
    simp [jwMatchSpecAux]
  | cons i is ih =>
    intro cons
    cases hfind : ((List.range maxb.length).filter fun j =>
        decide (inSpecWindow maxb.length i j)).find?
        (fun j => (minb.getD i 0 == maxb.getD j 0) && !(cons.contains j)) with
    | none =>
      rw [jwMatchSpecAux_cons_none hfind]
      obtain ⟨hs, hb, hn⟩ := ih cons
      exact ⟨hs.cons i, hb, hn⟩
    | some j =>
      rw [jwMatchSpecAux_cons_some hfind]
      obtain ⟨hs, hb, hn⟩ := ih (j :: cons)
      have hjmem := List.mem_of_find?_eq_some hfind
      have hjpred := List.find?_some hfind
      obtain ⟨hjr, _⟩ := List.mem_filter.mp hjmem
      have hjn : j < maxb.length := List.mem_range.mp hjr
      have hjcons : j ∉ cons := by
        rw [Bool.and_eq_true] at hjpred
        have h2' := hjpred.2
        simp at h2'
        exact h2'
      refine ⟨?_, ?_, ?_⟩
      · simp only [List.map_cons]
        exact hs.cons₂ i
      · intro p hp
        rcases List.mem_cons.mp hp with rfl | hp'
        · exact ⟨hjn, hjcons⟩
        · have hbp := hb p hp'
          exact ⟨hbp.1, fun hc => hbp.2 (List.mem_cons_of_mem _ hc)⟩
      · simp only [List.map_cons]
        rw [List.nodup_cons]
        refine ⟨?_, hn⟩
        intro hmem
        obtain ⟨p, hp, hp2⟩ := List.mem_map.mp hmem
        exact (hb p hp).2 (hp2 ▸ List.mem_cons_self _ _)

theorem transAux_step {minb maxb : List Nat} {buf : List Int} {k cur t n q : ℕ}
    (hmi : 0 ≤ buf.getD k 0 ∧ (buf.getD k 0).toNat < minb.length)
    (hfz : JaroWinkler.findZero minb.length maxb.length buf cur = some q) :
    JaroWinkler.transAux minb maxb (n+1) buf k cur t =
      JaroWinkler.transAux minb maxb n ((buf.set k (-1)).set (minb.length + q) (-1)) (k+1) (q+1)
        (if minb.getD (buf.getD k 0).toNat 0 != maxb.getD q 0 then t + 1 else t) := by
  simp only [JaroWinkler.transAux]
  rw [if_pos hmi, hfz]


theorem transAux_run (minb maxb : List Nat) :
    ∀ (R Q : List ℕ) (k cur t : ℕ) (buf : List Int),
    R.length = Q.length →
    (∀ r ∈ R, r < minb.length) →
    Q.Pairwise (· < ·) →
    (∀ q ∈ Q, cur ≤ q ∧ q < maxb.length) →
    k + R.length ≤ minb.length →
    minb.length + maxb.length ≤ buf.length →
    (∀ d, d < R.length → buf.getD (k + d) 0 = ((R.getD d 0 : ℕ) : Int)) →
    (∀ d, d < k → buf.getD d 0 = -1) →
    (∀ d, k + R.length ≤ d → d < minb.length → buf.getD d 0 = -1) →
    (∀ j, j < maxb.length → buf.getD (minb.length + j) 0 = if j ∈ Q then 0 else -1) →
    (∀ d, minb.length + maxb.length ≤ d → d < buf.length → buf.getD d 0 = -1) →
    JaroWinkler.transAux minb maxb R.length buf k cur t =
      some (t + mismCount minb maxb R Q, List.replicate buf.length (-1)) := by
  intro R
  induction R with
  | nil =>
    intro Q k cur t buf hlen hrb hQp hQc hkR hbl hrec hlow hmid hflag hhigh
    have hQ : Q = [] := by
      cases Q with
      | nil => rfl
      | cons q Q' => simp at hlen
    subst hQ
    have hall : ∀ b ∈ buf, b = -1 := by
      intro b hb
      obtain ⟨d, hd, hdb⟩ := List.mem_iff_getElem.mp hb
      have hget : buf.getD d 0 = b := by
        rw [List.getD_eq_getElem?_getD, List.getElem?_eq_getElem hd, Option.getD_some, hdb]
      rw [← hget]
      rcases Nat.lt_or_ge d minb.length with h1 | h1
      · rcases Nat.lt_or_ge d k with h2 | h2
        · exact hlow d h2
        · exact hmid d (by simp only [List.length_nil]; omega) h1
      · rcases Nat.lt_or_ge d (minb.length + maxb.length) with h3 | h3
        · have hj : d = minb.length + (d - minb.length) := by omega
          rw [hj, hflag (d - minb.length) (by omega)]
          simp
        · exact hhigh d h3 hd
    have hrep := List.eq_replicate_of_mem hall
    simp only [List.length_nil, JaroWinkler.transAux, mismCount, List.zip_nil_left,
      List.filter_nil, Nat.add_zero]
    rw [← hrep]
  | cons r R' ih =>
    intro Q k cur t buf hlen hrb hQp hQc hkR hbl hrec hlow hmid hflag hhigh
    cases Q with
    | nil => simp at hlen
    | cons q Q' =>
    simp only [List.length_cons] at hlen hkR hrec hmid
    have hrk : buf.getD k 0 = (r : Int) := by
      have h0 := hrec 0 (by simp)
      simpa using h0
    have hrmin : r < minb.length := hrb r (List.mem_cons_self _ _)
    have hmi : 0 ≤ buf.getD k 0 ∧ (buf.getD k 0).toNat < minb.length := by
      rw [hrk]
      refine ⟨Int.natCast_nonneg r, ?_⟩
      simpa using hrmin
    have hq := hQc q (List.mem_cons_self _ _)
    have hQ'lt : ∀ y ∈ Q', q < y := (List.pairwise_cons.mp hQp).1
    have hfz : JaroWinkler.findZero minb.length maxb.length buf cur = some q := by
      unfold JaroWinkler.findZero
      rw [find?_sorted_eq_some (pairwise_lt_range' _ _)]
      refine ⟨?_, ?_, ?_⟩
      · rw [List.mem_range'_1]
        omega
      · rw [hflag q hq.2, if_pos (List.mem_cons_self _ _)]
        rfl
      · intro y hy hpy
        rw [List.mem_range'_1] at hy
        have hyn : y < maxb.length := by omega
        have hyQ : y ∈ q :: Q' := by
          by_contra hc
          rw [hflag y hyn, if_neg hc] at hpy
          simp at hpy
        rcases List.mem_cons.mp hyQ with rfl | hy'
        · exact le_rfl
        · exact (hQ'lt y hy').le
    rw [show (r :: R').length = R'.length + 1 from rfl, transAux_step hmi hfz, hrk]
    simp only [Int.toNat_natCast]
    have hlen2 : ((buf.set k (-1)).set (minb.length + q) (-1)).length = buf.length := by simp
    have hkb : k < buf.length := by omega
    have hqb : minb.length + q < buf.length := by omega
    have hA : ∀ d, d < R'.length →
        ((buf.set k (-1)).set (minb.length + q) (-1)).getD (k+1 + d) 0 = ((R'.getD d 0 : ℕ) : Int) := by
      intro d hd
      have h1 := hrec (d+1) (by simp; omega)
      rw [show k + (d+1) = k+1+d from by omega, List.getD_cons_succ] at h1
      rw [getD_set_ne _ _ _ _ (by omega), getD_set_ne _ _ _ _ (by omega)]
      exact h1
    have hB : ∀ d, d < k+1 → ((buf.set k (-1)).set (minb.length + q) (-1)).getD d 0 = -1 := by
      intro d hd
      rcases Nat.lt_or_ge d k with h2 | h2
      · rw [getD_set_ne _ _ _ _ (by omega), getD_set_ne _ _ _ _ (by omega)]
        exact hlow d h2
      · have hdk : d = k := by omega
        subst hdk
        rw [getD_set_ne _ _ _ _ (by omega), getD_set_self _ _ _ hkb]
    have hC : ∀ d, (k+1) + R'.length ≤ d → d < minb.length →
        ((buf.set k (-1)).set (minb.length + q) (-1)).getD d 0 = -1 := by
      intro d hd1 hd2
      rw [getD_set_ne _ _ _ _ (by omega), getD_set_ne _ _ _ _ (by omega)]
      exact hmid d (by omega) hd2
    have hD : ∀ j, j < maxb.length →
        ((buf.set k (-1)).set (minb.length + q) (-1)).getD (minb.length + j) 0 =
          if j ∈ Q' then 0 else -1 := by
      intro j hj
      by_cases hjq : j = q
      · subst hjq
        rw [getD_set_self _ _ _ (by rw [List.length_set]; exact hqb)]
        rw [if_neg (fun hc => absurd (hQ'lt j hc) (lt_irrefl j))]
      · rw [getD_set_ne _ _ _ _ (by omega), getD_set_ne _ _ _ _ (by omega), hflag j hj]
        by_cases hc : j ∈ Q'
        · rw [if_pos (List.mem_cons_of_mem _ hc), if_pos hc]
        · rw [if_neg ?_, if_neg hc]
          intro hmem
          rcases List.mem_cons.mp hmem with h | h
          · exact hjq h
          · exact hc h
    have hE : ∀ d, minb.length + maxb.length ≤ d →
        d < ((buf.set k (-1)).set (minb.length + q) (-1)).length →
        ((buf.set k (-1)).set (minb.length + q) (-1)).getD d 0 = -1 := by
      intro d hd1 hd2
      rw [hlen2] at hd2
      rw [getD_set_ne _ _ _ _ (by omega), getD_set_ne _ _ _ _ (by omega)]
      exact hhigh d hd1 hd2
    have happ := ih Q' (k+1) (q+1)
      (if (minb.getD r 0 != maxb.getD q 0) = true then t + 1 else t)
      ((buf.set k (-1)).set (minb.length + q) (-1))
      (by simpa using hlen)
      (fun r' hr' => hrb r' (List.mem_cons_of_mem _ hr'))
      (List.pairwise_cons.mp hQp).2
      (fun q' hq' => ⟨hQ'lt q' hq', (hQc q' (List.mem_cons_of_mem _ hq')).2⟩)
      (by omega)
      (by rw [hlen2]; exact hbl)
      hA hB hC hD hE
    rw [happ, hlen2]
    have hmc : mismCount minb maxb (r :: R') (q :: Q') =
        (if (minb.getD r 0 == maxb.getD q 0) = true then 0 else 1) + mismCount minb maxb R' Q' := by
      unfold mismCount
      rw [List.zip_cons_cons, List.filter_cons]
      cases hbe : (minb.getD r 0 == maxb.getD q 0) with
      | true => simp [hbe]
      | false =>
        simp [hbe]
        omega
    rw [hmc]
    have hbne : (minb.getD r 0 != maxb.getD q 0) = !(minb.getD r 0 == maxb.getD q 0) := rfl
    have harith : (if (minb.getD r 0 != maxb.getD q 0) = true then t + 1 else t) +
        mismCount minb maxb R' Q' =
        t + ((if (minb.getD r 0 == maxb.getD q 0) = true then 0 else 1) +
          mismCount minb maxb R' Q') := by
      cases hbe : (minb.getD r 0 == maxb.getD q 0) with
      | true =>
        rw [hbne, hbe, Bool.not_true, if_neg (by simp), if_pos rfl]
        omega
      | false =>
        rw [hbne, hbe, Bool.not_false, if_pos rfl, if_neg (by simp)]
        omega
    rw [harith]

theorem matchesAux_length (minb maxb : List Nat) :
    ∀ (is : List ℕ) (buf : List Int) (m : ℕ),
      ((JaroWinkler.matchesAux minb maxb is buf m).1).length = buf.length := by
  intro is
  induction is with
  | nil => intro buf m; rfl
  | cons i is ih =>
    intro buf m
    cases hscan : JaroWinkler.innerScan minb maxb buf i with
    | none =>
      rw [matchesAux_cons_none hscan]
      exact ih buf m
    | some j =>
      rw [matchesAux_cons_some hscan]
      rw [ih]
      simp

theorem bufClean_iff (buf : List Int) : bufClean buf ↔ buf = List.replicate buf.length (-1) := by
  constructor
  · exact List.eq_replicate_of_mem
  · intro h x hx
    rw [h] at hx
    exact List.eq_of_mem_replicate hx

theorem sortedColsOf_mem {n₂ : ℕ} {M : List (ℕ × ℕ)} {x : ℕ} :
    x ∈ sortedColsOf n₂ M ↔ x < n₂ ∧ x ∈ M.map Prod.snd := by
  unfold sortedColsOf
  rw [List.mem_filter, List.mem_range]
  simp

theorem sortedColsOf_pairwise (n₂ : ℕ) (M : List (ℕ × ℕ)) :
    (sortedColsOf n₂ M).Pairwise (· < ·) := by
  unfold sortedColsOf
  rw [List.range_eq_range']
  exact (pairwise_lt_range' 0 n₂).filter _

theorem sortedColsOf_perm {n₂ : ℕ} {M : List (ℕ × ℕ)}
    (hnd : (M.map Prod.snd).Nodup) (hbd : ∀ x ∈ M.map Prod.snd, x < n₂) :
    List.Perm (sortedColsOf n₂ M) (M.map Prod.snd) := by
  have h1 : (sortedColsOf n₂ M).Nodup := by
    unfold sortedColsOf
    exact (List.nodup_range n₂).filter _
  rw [List.perm_ext_iff_of_nodup h1 hnd]
  intro x
  rw [sortedColsOf_mem]
  constructor
  · exact fun h => h.2
  · exact fun h => ⟨hbd x h, h⟩

theorem matchesRun_spec (minb maxb : List Nat) (buf : List Int)
    (hclean : bufClean buf) (hmm : minb.length ≤ maxb.length)
    (hlen : minb.length + maxb.length ≤ buf.length) :
    ∃ buf', JaroWinkler.matchesRun minb maxb buf = (buf', (jwMatchSpec minb maxb).length) ∧
      Encodes minb.length maxb.length ((jwMatchSpec minb maxb).map Prod.fst)
        ((jwMatchSpec minb maxb).map Prod.snd) buf' ∧
      buf'.length = buf.length := by
  obtain ⟨buf', heq, henc⟩ := matchesAux_sim minb maxb hmm minb.length 0 buf [] []
    (by omega) (by simp) (Encodes_init hclean hlen)
  have heq' : JaroWinkler.matchesAux minb maxb (List.range' 0 minb.length) buf 0 =
      (buf', (jwMatchSpecAux minb maxb [] (List.range' 0 minb.length)).length) := by
    simpa using heq
  refine ⟨buf', ?_, ?_, ?_⟩
  · unfold JaroWinkler.matchesRun jwMatchSpec
    rw [List.range_eq_range']
    exact heq'
  · unfold jwMatchSpec
    rw [List.range_eq_range']
    simpa using henc
  · have hl := matchesAux_length minb maxb (List.range' 0 minb.length) buf 0
    rw [heq'] at hl
    exact hl

theorem jwMatchSpec_props (minb maxb : List Nat) :
    ((jwMatchSpec minb maxb).map Prod.fst).Pairwise (· < ·) ∧
    (∀ p ∈ jwMatchSpec minb maxb, p.1 < minb.length ∧ p.2 < maxb.length) ∧
    ((jwMatchSpec minb maxb).map Prod.snd).Nodup ∧
    (jwMatchSpec minb maxb).length ≤ minb.length := by
  obtain ⟨hs, hb, hn⟩ := jwMatchSpecAux_props minb maxb (List.range minb.length) []
  have hsub := hs
  refine ⟨?_, ?_, hn, ?_⟩
  · refine List.Pairwise.sublist hsub ?_
    rw [List.range_eq_range']
    exact pairwise_lt_range' 0 _
  · intro p hp
    constructor
    · have : p.1 ∈ (jwMatchSpec minb maxb).map Prod.fst := List.mem_map_of_mem _ hp
      have := hsub.subset this
      exact List.mem_range.mp this
    · exact (hb p hp).1
  · have h1 := hsub.length_le
    simpa using h1

theorem calculate_spec (minb maxb : List Nat) (buf : List Int)
    (hclean : bufClean buf) (hmm : minb.length ≤ maxb.length)
    (hlen : minb.length + maxb.length ≤ buf.length) :
    JaroWinkler.calculate minb maxb buf = some (scoreSpec minb maxb, buf) := by
  obtain ⟨buf', hrun, henc, hblen⟩ := matchesRun_spec minb maxb buf hclean hmm hlen
  obtain ⟨hpair, hbd, hnd, hmlen⟩ := jwMatchSpec_props minb maxb
  obtain ⟨he1, he2, he3, he4, he5⟩ := henc
  by_cases hm0 : (jwMatchSpec minb maxb).length = 0
  · have hMnil : jwMatchSpec minb maxb = [] := List.length_eq_zero.mp hm0
    have hb'clean : bufClean buf' := by
      intro b hb
      obtain ⟨d, hd, hdb⟩ := List.mem_iff_getElem.mp hb
      have hget : buf'.getD d 0 = b := by
        rw [List.getD_eq_getElem?_getD, List.getElem?_eq_getElem hd, Option.getD_some, hdb]
      rw [← hget]
      rcases Nat.lt_or_ge d minb.length with h1 | h1
      · exact he3 d (by simp [hMnil]) h1
      · rcases Nat.lt_or_ge d (minb.length + maxb.length) with h3 | h3
        · have hj : d = minb.length + (d - minb.length) := by omega
          rw [hj, he4 (d - minb.length) (by omega)]
          simp [hMnil]
        · exact he5 d h3 hd
    have hbb : buf' = buf := by
      rw [(bufClean_iff buf').mp hb'clean, (bufClean_iff buf).mp hclean, hblen]
    simp only [JaroWinkler.calculate, hrun, hm0, if_pos]
    unfold scoreSpec
    rw [if_pos hm0, hbb]
  · have hbd2 : ∀ x ∈ (jwMatchSpec minb maxb).map Prod.snd, x < maxb.length := by
      intro x hx
      obtain ⟨p, hp, hp2⟩ := List.mem_map.mp hx
      exact hp2 ▸ (hbd p hp).2
    have hQperm := sortedColsOf_perm hnd hbd2
    have hRlen : ((jwMatchSpec minb maxb).map Prod.fst).length = (jwMatchSpec minb maxb).length := by
      simp
    have hQlen : (sortedColsOf maxb.length (jwMatchSpec minb maxb)).length =
        (jwMatchSpec minb maxb).length := by
      rw [hQperm.length_eq]
      simp
    have htrans := transAux_run minb maxb ((jwMatchSpec minb maxb).map Prod.fst)
      (sortedColsOf maxb.length (jwMatchSpec minb maxb)) 0 0 0 buf'
      (by omega)
      (by
        intro r hr
        obtain ⟨p, hp, hp2⟩ := List.mem_map.mp hr
        exact hp2 ▸ (hbd p hp).1)
      (sortedColsOf_pairwise _ _)
      (by
        intro q hq
        exact ⟨Nat.zero_le q, (sortedColsOf_mem.mp hq).1⟩)
      (by omega)
      (by omega)
      (by
        intro d hd
        rw [Nat.zero_add]
        exact he2 d hd)
      (fun d hd => absurd hd (Nat.not_lt_zero d))
      (by
        intro d hd1 hd2
        exact he3 d (by omega) hd2)
      (by
        intro j hj
        rw [he4 j hj]
        by_cases hc : j ∈ (jwMatchSpec minb maxb).map Prod.snd
        · rw [if_pos hc, if_pos (sortedColsOf_mem.mpr ⟨hj, hc⟩)]
        · rw [if_neg hc, if_neg (fun hc' => hc (sortedColsOf_mem.mp hc').2)])
      he5
    rw [hRlen] at htrans
    have htp : JaroWinkler.transpositions minb maxb buf' (jwMatchSpec minb maxb).length =
        some ((mismCount minb maxb ((jwMatchSpec minb maxb).map Prod.fst)
          (sortedColsOf maxb.length (jwMatchSpec minb maxb))) / 2,
          List.replicate buf'.length (-1)) := by
      unfold JaroWinkler.transpositions
      rw [htrans]
      simp
    have hrepl : List.replicate buf'.length (-1 : Int) = buf := by
      rw [hblen, ← (bufClean_iff buf).mp hclean]
    simp only [JaroWinkler.calculate, hrun, hm0, if_neg, htp, hrepl]
    unfold scoreSpec
    rw [if_neg hm0]
    simp

theorem fround_one : fround (1:ℚ) = 1 := by
  have h := fround_natCast 1 (by norm_num)
  simpa using h

theorem fround_half : fround (1/2 : ℚ) = 1/2 := by
  refine fround_fix ⟨1, -1, by norm_num, ?_⟩
  rw [zpow_neg]
  norm_num

theorem fround_eighth : fround (1/8 : ℚ) = 1/8 := by
  refine fround_fix ⟨1, -3, by norm_num, ?_⟩
  rw [zpow_neg]
  norm_num

theorem c01_nonneg : 0 ≤ c01 := fround_nonneg (by norm_num)

theorem c01_le : c01 ≤ 1/8 := by
  unfold c01
  calc fround (1/10 : ℚ) ≤ fround (1/8 : ℚ) := fround_mono (by norm_num) (by norm_num)
    _ = 1/8 := fround_eighth

theorem fscore_bounds (m t p n₁ n₂ : ℕ) (hm : 1 ≤ m) (hmn : m ≤ n₁) (hnn : n₁ ≤ n₂)
    (ht : t ≤ m) (hp : p ≤ 4) (jv res : ℚ)
    (hjv : jv = fdiv (fadd (fadd (fdiv (fround m) (fround n₁)) (fdiv (fround m) (fround n₂)))
      (fdiv (fsub (fround m) (fround t)) (fround m))) 3)
    (hres : res = fadd jv (fmul (fmul c01 (fround p)) (fsub 1 jv))) :
    0 < res ∧ res ≤ 1 := by
  have hmq : (0:ℚ) < (m:ℚ) := by exact_mod_cast hm
  have hn1q : (0:ℚ) < (n₁:ℚ) := by exact_mod_cast (by omega : 1 ≤ n₁)
  have hn2q : (0:ℚ) < (n₂:ℚ) := by exact_mod_cast (by omega : 1 ≤ n₂)
  have htq : (0:ℚ) ≤ (t:ℚ) := by positivity
  have hmf : 0 < fround (m:ℚ) := fround_pos hmq
  have hn1f : 0 < fround (n₁:ℚ) := fround_pos hn1q
  have hn2f : 0 < fround (n₂:ℚ) := fround_pos hn2q
  have hmle1 : fround (m:ℚ) ≤ fround (n₁:ℚ) := fround_mono hmq.le (by exact_mod_cast hmn)
  have hmle2 : fround (m:ℚ) ≤ fround (n₂:ℚ) :=
    fround_mono hmq.le (by exact_mod_cast le_trans hmn hnn)
  have htf0 : 0 ≤ fround (t:ℚ) := fround_nonneg htq
  have htfm : fround (t:ℚ) ≤ fround (m:ℚ) := fround_mono htq (by exact_mod_cast ht)
  have hfixm : fround (fround (m:ℚ)) = fround (m:ℚ) := fround_fix (fround_rep hmq.le)
  -- the three summands of the Jaro mean
  have hd1pos : 0 < fdiv (fround (m:ℚ)) (fround (n₁:ℚ)) := fround_pos (div_pos hmf hn1f)
  have hd1le : fdiv (fround (m:ℚ)) (fround (n₁:ℚ)) ≤ 1 := by
    have h1 : fround (m:ℚ) / fround (n₁:ℚ) ≤ 1 := (div_le_one hn1f).mpr hmle1
    calc fdiv (fround (m:ℚ)) (fround (n₁:ℚ)) ≤ fround 1 :=
          fround_mono (by positivity) h1
      _ = 1 := fround_one
  have hd2pos : 0 < fdiv (fround (m:ℚ)) (fround (n₂:ℚ)) := fround_pos (div_pos hmf hn2f)
  have hd2le : fdiv (fround (m:ℚ)) (fround (n₂:ℚ)) ≤ 1 := by
    have h1 : fround (m:ℚ) / fround (n₂:ℚ) ≤ 1 := (div_le_one hn2f).mpr hmle2
    calc fdiv (fround (m:ℚ)) (fround (n₂:ℚ)) ≤ fround 1 :=
          fround_mono (by positivity) h1
      _ = 1 := fround_one
  have hsub0 : (0:ℚ) ≤ fround (m:ℚ) - fround (t:ℚ) := by linarith
  have hsubnn : 0 ≤ fsub (fround (m:ℚ)) (fround (t:ℚ)) := fround_nonneg hsub0
  have hsuble : fsub (fround (m:ℚ)) (fround (t:ℚ)) ≤ fround (m:ℚ) := by
    calc fsub (fround (m:ℚ)) (fround (t:ℚ)) ≤ fround (fround (m:ℚ)) :=
          fround_mono hsub0 (by linarith)
      _ = fround (m:ℚ) := hfixm
  have hd3nn : 0 ≤ fdiv (fsub (fround (m:ℚ)) (fround (t:ℚ))) (fround (m:ℚ)) :=
    fround_nonneg (div_nonneg hsubnn hmf.le)
  have hd3le : fdiv (fsub (fround (m:ℚ)) (fround (t:ℚ))) (fround (m:ℚ)) ≤ 1 := by
    have h1 : fsub (fround (m:ℚ)) (fround (t:ℚ)) / fround (m:ℚ) ≤ 1 :=
      (div_le_one hmf).mpr hsuble
    calc fdiv (fsub (fround (m:ℚ)) (fround (t:ℚ))) (fround (m:ℚ)) ≤ fround 1 :=
          fround_mono (div_nonneg hsubnn hmf.le) h1
      _ = 1 := fround_one
  -- the sums
  have hfixd1 : fround (fdiv (fround (m:ℚ)) (fround (n₁:ℚ))) =
      fdiv (fround (m:ℚ)) (fround (n₁:ℚ)) := fround_fix (fround_rep (div_pos hmf hn1f).le)
  have hs1pos : 0 < fadd (fdiv (fround (m:ℚ)) (fround (n₁:ℚ))) (fdiv (fround (m:ℚ)) (fround (n₂:ℚ))) := by
    have h1 : fdiv (fround (m:ℚ)) (fround (n₁:ℚ)) ≤
        fdiv (fround (m:ℚ)) (fround (n₁:ℚ)) + fdiv (fround (m:ℚ)) (fround (n₂:ℚ)) := by linarith
    calc (0:ℚ) < fdiv (fround (m:ℚ)) (fround (n₁:ℚ)) := hd1pos
      _ = fround (fdiv (fround (m:ℚ)) (fround (n₁:ℚ))) := hfixd1.symm
      _ ≤ fadd (fdiv (fround (m:ℚ)) (fround (n₁:ℚ))) (fdiv (fround (m:ℚ)) (fround (n₂:ℚ))) :=
          fround_mono hd1pos.le h1
  have hs1nn : 0 ≤ fadd (fdiv (fround (m:ℚ)) (fround (n₁:ℚ))) (fdiv (fround (m:ℚ)) (fround (n₂:ℚ))) :=
    hs1pos.le
  have hs1le : fadd (fdiv (fround (m:ℚ)) (fround (n₁:ℚ))) (fdiv (fround (m:ℚ)) (fround (n₂:ℚ))) ≤ 2 := by
    have h2 : fround (2:ℚ) = 2 := by
      have h := fround_natCast 2 (by norm_num)
      simpa using h
    calc fadd (fdiv (fround (m:ℚ)) (fround (n₁:ℚ))) (fdiv (fround (m:ℚ)) (fround (n₂:ℚ))) ≤
          fround 2 := fround_mono (by linarith) (by linarith)
      _ = 2 := h2
  have hfixs1 : fround (fadd (fdiv (fround (m:ℚ)) (fround (n₁:ℚ)))
      (fdiv (fround (m:ℚ)) (fround (n₂:ℚ)))) =
      fadd (fdiv (fround (m:ℚ)) (fround (n₁:ℚ))) (fdiv (fround (m:ℚ)) (fround (n₂:ℚ))) :=
    fround_fix (fround_rep (by linarith))
  have hs2pos : 0 < fadd (fadd (fdiv (fround (m:ℚ)) (fround (n₁:ℚ)))
      (fdiv (fround (m:ℚ)) (fround (n₂:ℚ))))
      (fdiv (fsub (fround (m:ℚ)) (fround (t:ℚ))) (fround (m:ℚ))) := by
    calc (0:ℚ) < fadd (fdiv (fround (m:ℚ)) (fround (n₁:ℚ))) (fdiv (fround (m:ℚ)) (fround (n₂:ℚ))) :=
          hs1pos
      _ = fround (fadd (fdiv (fround (m:ℚ)) (fround (n₁:ℚ)))
          (fdiv (fround (m:ℚ)) (fround (n₂:ℚ)))) := hfixs1.symm
      _ ≤ fadd (fadd (fdiv (fround (m:ℚ)) (fround (n₁:ℚ))) (fdiv (fround (m:ℚ)) (fround (n₂:ℚ))))
          (fdiv (fsub (fround (m:ℚ)) (fround (t:ℚ))) (fround (m:ℚ))) :=
          fround_mono hs1nn (by linarith)
  have hs2le : fadd (fadd (fdiv (fround (m:ℚ)) (fround (n₁:ℚ)))
      (fdiv (fround (m:ℚ)) (fround (n₂:ℚ))))
      (fdiv (fsub (fround (m:ℚ)) (fround (t:ℚ))) (fround (m:ℚ))) ≤ 3 := by
    have h3 : fround (3:ℚ) = 3 := by
      have h := fround_natCast 3 (by norm_num)
      simpa using h
    calc fadd (fadd (fdiv (fround (m:ℚ)) (fround (n₁:ℚ))) (fdiv (fround (m:ℚ)) (fround (n₂:ℚ))))
          (fdiv (fsub (fround (m:ℚ)) (fround (t:ℚ))) (fround (m:ℚ))) ≤ fround 3 :=
          fround_mono (by linarith) (by linarith)
      _ = 3 := h3
  -- jv
  have hjpos : 0 < jv := by
    rw [hjv]
    exact fround_pos (by positivity)
  have hjle : jv ≤ 1 := by
    rw [hjv]
    have h1 : fadd (fadd (fdiv (fround (m:ℚ)) (fround (n₁:ℚ))) (fdiv (fround (m:ℚ)) (fround (n₂:ℚ))))
        (fdiv (fsub (fround (m:ℚ)) (fround (t:ℚ))) (fround (m:ℚ))) / 3 ≤ 1 := by
      rw [div_le_one (by norm_num)]
      exact hs2le
    calc fdiv (fadd (fadd (fdiv (fround (m:ℚ)) (fround (n₁:ℚ))) (fdiv (fround (m:ℚ)) (fround (n₂:ℚ))))
          (fdiv (fsub (fround (m:ℚ)) (fround (t:ℚ))) (fround (m:ℚ)))) 3 ≤ fround 1 :=
          fround_mono (by positivity) h1
      _ = 1 := fround_one
  have hrepj : FRep jv := by
    rw [hjv]
    exact fround_rep (by positivity)
  have hfixj : fround jv = jv := fround_fix hrepj
  -- the prefix bonus factor
  have hpf0 : 0 ≤ fround (p:ℚ) := fround_nonneg (by positivity)
  have hpf4 : fround (p:ℚ) ≤ 4 := by
    have h4 : fround (4:ℚ) = 4 := by
      have h := fround_natCast 4 (by norm_num)
      simpa using h
    calc fround (p:ℚ) ≤ fround 4 := fround_mono (by positivity) (by exact_mod_cast hp)
      _ = 4 := h4
  have hx0 : 0 ≤ fmul c01 (fround (p:ℚ)) := fround_nonneg (mul_nonneg c01_nonneg hpf0)
  have hxhalf : fmul c01 (fround (p:ℚ)) ≤ 1/2 := by
    have h1 : c01 * fround (p:ℚ) ≤ (1/8) * 4 := by
      apply mul_le_mul c01_le hpf4 hpf0 (by norm_num)
    calc fmul c01 (fround (p:ℚ)) ≤ fround (1/2 : ℚ) :=
          fround_mono (mul_nonneg c01_nonneg hpf0) (by linarith)
      _ = 1/2 := fround_half
  -- u = fsub 1 jv
  have hu0 : 0 ≤ fsub 1 jv := fround_nonneg (by linarith)
  have hule : fsub 1 jv ≤ 1 := by
    calc fsub 1 jv ≤ fround 1 := fround_mono (by linarith) (by linarith)
      _ = 1 := fround_one
  have hv0 : 0 ≤ fmul (fmul c01 (fround (p:ℚ))) (fsub 1 jv) :=
    fround_nonneg (mul_nonneg hx0 hu0)
  constructor
  · -- positivity
    rw [hres]
    calc (0:ℚ) < jv := hjpos
      _ = fround jv := hfixj.symm
      _ ≤ fadd jv (fmul (fmul c01 (fround (p:ℚ))) (fsub 1 jv)) :=
          fround_mono hjpos.le (by linarith)
  · -- upper bound
    rw [hres]
    rcases lt_or_le jv (1/2) with hhalf | hhalf
    · -- small jv: the bonus is at most 1/2
      have hvle : fmul (fmul c01 (fround (p:ℚ))) (fsub 1 jv) ≤ 1/2 := by
        have h1 : (fmul c01 (fround (p:ℚ))) * (fsub 1 jv) ≤ (1/2) * 1 :=
          mul_le_mul hxhalf hule hu0 (by norm_num)
        calc fmul (fmul c01 (fround (p:ℚ))) (fsub 1 jv) ≤ fround (1/2 : ℚ) :=
              fround_mono (mul_nonneg hx0 hu0) (by linarith)
          _ = 1/2 := fround_half
      calc fadd jv (fmul (fmul c01 (fround (p:ℚ))) (fsub 1 jv)) ≤ fround 1 :=
            fround_mono (by linarith) (by linarith)
        _ = 1 := fround_one
    · -- large jv: 1 - jv is exactly representable (Sterbenz), bonus ≤ 1 - jv
      have hfix1j : fsub 1 jv = 1 - jv :=
        fround_fix (frep_one_sub hrepj hhalf hjle)
      have hvle : fmul (fmul c01 (fround (p:ℚ))) (fsub 1 jv) ≤ 1 - jv := by
        have h1 : (fmul c01 (fround (p:ℚ))) * (fsub 1 jv) ≤ (1/2) * (1 - jv) := by
          rw [hfix1j]
          exact mul_le_mul_of_nonneg_right hxhalf (by linarith)
        calc fmul (fmul c01 (fround (p:ℚ))) (fsub 1 jv) ≤ fround (1 - jv) :=
              fround_mono (mul_nonneg hx0 hu0) (by linarith)
          _ = 1 - jv := hfix1j
      calc fadd jv (fmul (fmul c01 (fround (p:ℚ))) (fsub 1 jv)) ≤ fround 1 :=
            fround_mono (by linarith) (by linarith)
        _ = 1 := fround_one

theorem gmatch_nil_free (B : ℕ → ℕ → Bool) : ∀ R : List ℕ, gmatch B R [] = [] := by
  intro R
  induction R with
  | nil => rfl
  | cons i is ih => simp only [gmatch, List.find?_nil]; exact ih

theorem gmatch_cons_none {A : ℕ → ℕ → Bool} {i : ℕ} {is C : List ℕ}
    (hf : C.find? (fun j => A i j) = none) :
    gmatch A (i :: is) C = gmatch A is C := by
  simp [gmatch, hf]

theorem gmatch_cons_some {A : ℕ → ℕ → Bool} {i j : ℕ} {l C : List ℕ}
    (hf : C.find? (fun j => A i j) = some j) :
    gmatch A (i :: l) C = (i, j) :: gmatch A l (C.erase j) := by
  simp [gmatch, hf]

theorem find?_congr_pred {l : List ℕ} {p q : ℕ → Bool} (h : ∀ x ∈ l, p x = q x) :
    l.find? p = l.find? q := by
  induction l with
  | nil => rfl
  | cons a l ih =>
    have ha := h a (List.mem_cons_self _ _)
    cases hp : p a with
    | true =>
      rw [List.find?_cons_of_pos _ hp, List.find?_cons_of_pos _ (ha ▸ hp)]
    | false =>
      rw [List.find?_cons_of_neg _ (by simp [hp]), List.find?_cons_of_neg _ (by simp [← ha, hp])]
      exact ih (fun x hx => h x (List.mem_cons_of_mem _ hx))

theorem gmatch_congr (A A' : ℕ → ℕ → Bool) : ∀ (R C : List ℕ),
    (∀ i ∈ R, ∀ j ∈ C, A i j = A' i j) → gmatch A R C = gmatch A' R C := by
  intro R
  induction R with
  | nil => intro C h; rfl
  | cons i is ih =>
    intro C h
    have hpred : C.find? (fun j => A i j) = C.find? (fun j => A' i j) :=
      find?_congr_pred (fun x hx => h i (List.mem_cons_self _ _) x hx)
    cases hf : C.find? (fun j => A' i j) with
    | none =>
      rw [gmatch_cons_none (hpred.trans hf), gmatch_cons_none hf]
      exact ih C (fun i' hi' j hj => h i' (List.mem_cons_of_mem _ hi') j hj)
    | some j =>
      rw [gmatch_cons_some (hpred.trans hf), gmatch_cons_some hf]
      rw [ih (C.erase j) (fun i' hi' j' hj' =>
        h i' (List.mem_cons_of_mem _ hi') j' (List.erase_subset _ _ hj'))]

theorem gmatch_skip (B : ℕ → ℕ → Bool) (i : ℕ) : ∀ (C is : List ℕ),
    (∀ j ∈ C, B j i = false) →
    gmatch B C (i :: is) = gmatch B C is := by
  intro C
  induction C with
  | nil => intro is _; rfl
  | cons j C' ih =>
    intro is h
    have hji : B j i = false := h j (List.mem_cons_self _ _)
    have hcons : ((i :: is).find? fun x => B j x) = (is.find? fun x => B j x) :=
      List.find?_cons_of_neg _ (by simp [hji])
    cases hf : is.find? (fun x => B j x) with
    | none =>
      rw [gmatch_cons_none (hcons.trans hf), gmatch_cons_none hf]
      exact ih is (fun j' hj' => h j' (List.mem_cons_of_mem _ hj'))
    | some r =>
      have hri : r ≠ i := by
        intro he
        have hr := List.find?_some hf
        rw [he, hji] at hr
        exact absurd hr (by simp)
      have herase : (i :: is).erase r = i :: is.erase r := by
        rw [List.erase_cons_tail]
        simp [Ne.symm hri]
      rw [gmatch_cons_some (hcons.trans hf), gmatch_cons_some hf, herase]
      rw [ih (is.erase r) (fun j' hj' => h j' (List.mem_cons_of_mem _ hj'))]

theorem gmatch_step (B : ℕ → ℕ → Bool) (i : ℕ) : ∀ (C : List ℕ) (j0 : ℕ) (is : List ℕ),
    C.find? (fun j => B j i) = some j0 →
    List.Perm (gmatch B C (i :: is)) ((j0, i) :: gmatch B (C.erase j0) is) := by
  intro C
  induction C with
  | nil => intro j0 is h; simp at h
  | cons j C' ih =>
    intro j0 is h
    by_cases hji : B j i = true
    · rw [List.find?_cons_of_pos (p := fun x => B x i) C' hji] at h
      injection h with h
      subst h
      have hcons : ((i :: is).find? fun x => B j x) = some i :=
        List.find?_cons_of_pos _ hji
      rw [gmatch_cons_some (A := B) (i := j) (l := C') (C := i :: is) hcons,
        List.erase_cons_head, List.erase_cons_head]
    · have hji' : B j i = false := by
        revert hji
        cases (B j i) <;> simp
      rw [List.find?_cons_of_neg _ (by simp [hji'])] at h
      have hj0 : j0 ≠ j := by
        intro he
        have hs := List.find?_some h
        rw [he, hji'] at hs
        exact absurd hs (by simp)
      have herase : (j :: C').erase j0 = j :: C'.erase j0 := by
        rw [List.erase_cons_tail]
        simp [Ne.symm hj0]
      have hcons : ((i :: is).find? fun x => B j x) = (is.find? fun x => B j x) :=
        List.find?_cons_of_neg _ (by simp [hji'])
      rw [herase]
      cases hf : is.find? (fun x => B j x) with
      | none =>
        rw [gmatch_cons_none (hcons.trans hf), gmatch_cons_none hf]
        exact ih j0 is h
      | some r =>
        have hri : r ≠ i := by
          intro he
          have hr := List.find?_some hf
          rw [he, hji'] at hr
          exact absurd hr (by simp)
        have herase2 : (i :: is).erase r = i :: is.erase r := by
          rw [List.erase_cons_tail]
          simp [Ne.symm hri]
        rw [gmatch_cons_some (hcons.trans hf), gmatch_cons_some hf, herase2]
        refine ((ih j0 (is.erase r) h).cons (j, r)).trans ?_
        exact List.Perm.swap _ _ _

theorem gmatch_transpose (A : ℕ → ℕ → Bool) : ∀ (R C : List ℕ),
    List.Perm ((gmatch (fun j i => A i j) C R).map Prod.swap) (gmatch A R C) := by
  intro R
  induction R with
  | nil =>
    intro C
    rw [gmatch_nil_free]
    simp [gmatch]
  | cons i is ih =>
    intro C
    cases hf : C.find? (fun j => A i j) with
    | none =>
      have hfalse : ∀ j ∈ C, A i j = false := by
        intro j hj
        have hn := List.find?_eq_none.mp hf j hj
        revert hn
        cases (A i j) <;> simp
      have hskip := gmatch_skip (fun j i' => A i' j) i C is hfalse
      rw [hskip, gmatch_cons_none hf]
      exact ih C
    | some j0 =>
      have hstep := gmatch_step (fun j i' => A i' j) i C j0 is hf
      rw [gmatch_cons_some hf]
      refine (hstep.map Prod.swap).trans ?_
      simp only [List.map_cons, Prod.swap_prod_mk]
      exact (ih (C.erase j0)).cons (i, j0)

theorem jwSpec_eq_gmatch (minb maxb : List Nat) : ∀ (is cons : List ℕ),
    jwMatchSpecAux minb maxb cons is =
      gmatch (adjB minb maxb) is ((List.range maxb.length).filter fun j => !(cons.contains j)) := by
  intro is
  induction is with
  | nil => intro cons; rfl
  | cons i is ih =>
    intro cons
    have hS : ((List.range maxb.length).filter fun j =>
          decide (inSpecWindow maxb.length i j)).find?
        (fun j => (minb.getD i 0 == maxb.getD j 0) && !(cons.contains j)) =
        ((List.range maxb.length).filter fun j => !(cons.contains j)).find?
          (fun j => adjB minb maxb i j) := by
      rw [List.find?_filter, List.find?_filter]
      apply find?_congr_pred
      intro x _
      cases hw : decide (inSpecWindow maxb.length i x) <;>
        cases hb : (minb.getD i 0 == maxb.getD x 0) <;>
        cases hc : cons.contains x <;>
        simp only [adjB, hw, hb, hc] <;> rfl
    cases hf : ((List.range maxb.length).filter fun j => !(cons.contains j)).find?
        (fun j => adjB minb maxb i j) with
    | none =>
      rw [jwMatchSpecAux_cons_none (hS.trans hf), gmatch_cons_none hf]
      exact ih cons
    | some j =>
      rw [jwMatchSpecAux_cons_some (hS.trans hf), gmatch_cons_some hf, ih (j :: cons)]
      have herase : ((List.range maxb.length).filter fun x => !((j :: cons).contains x)) =
          ((List.range maxb.length).filter fun x => !(cons.contains x)).erase j := by
        rw [List.Nodup.erase_eq_filter ((List.nodup_range maxb.length).filter _)]
        rw [List.filter_filter]
        apply List.filter_congr
        intro x _
        cases hxj : (x == j) <;> cases hc : cons.contains x <;>
          simp only [List.contains_cons, hxj, hc, bne] <;> rfl
      rw [herase]

theorem jwMatchSpec_eq_gmatch (minb maxb : List Nat) :
    jwMatchSpec minb maxb =
      gmatch (adjB minb maxb) (List.range minb.length) (List.range maxb.length) := by
  unfold jwMatchSpec
  rw [jwSpec_eq_gmatch]
  congr 1
  simp

theorem inSpecWindow_symm {n i j : ℕ} (hi : i < n) (hj : j < n) :
    inSpecWindow n i j ↔ inSpecWindow n j i := by
  unfold inSpecWindow specRange
  omega

theorem adjB_symm (a b : List Nat) (hlen : a.length = b.length) (i j : ℕ)
    (hi : i < a.length) (hj : j < b.length) : adjB b a j i = adjB a b i j := by
  unfold adjB
  have hbeq : (b.getD j 0 == a.getD i 0) = (a.getD i 0 == b.getD j 0) := by
    simp [eq_comm]
  rw [hbeq]
  congr 1
  rw [decide_eq_decide, hlen]
  exact inSpecWindow_symm hj (hlen ▸ hi)

theorem jwMatchSpec_swap (a b : List Nat) (hlen : a.length = b.length) :
    List.Perm ((jwMatchSpec b a).map Prod.swap) (jwMatchSpec a b) := by
  rw [jwMatchSpec_eq_gmatch a b, jwMatchSpec_eq_gmatch b a]
  have hcongr : gmatch (adjB b a) (List.range b.length) (List.range a.length) =
      gmatch (fun j i => adjB a b i j) (List.range b.length) (List.range a.length) := by
    apply gmatch_congr
    intro j hj i hi
    exact adjB_symm a b hlen i j (List.mem_range.mp hi) (List.mem_range.mp hj)
  rw [hcongr]
  exact gmatch_transpose (adjB a b) (List.range a.length) (List.range b.length)

theorem sorted_perm_eq {l₁ l₂ : List ℕ} (h1 : l₁.Pairwise (· < ·)) (h2 : l₂.Pairwise (· < ·))
    (hp : List.Perm l₁ l₂) : l₁ = l₂ := by
  haveI : IsAntisymm ℕ (· < ·) := ⟨fun a b hab hba => absurd hba (lt_asymm hab)⟩
  exact List.eq_of_perm_of_sorted hp h1 h2

theorem mismCount_cons (minb maxb : List Nat) (r q : ℕ) (rs qs : List ℕ) :
    mismCount minb maxb (r :: rs) (q :: qs) =
      (if (minb.getD r 0 == maxb.getD q 0) = true then 0 else 1) + mismCount minb maxb rs qs := by
  unfold mismCount
  rw [List.zip_cons_cons, List.filter_cons]
  cases hbe : (minb.getD r 0 == maxb.getD q 0) with
  | true => simp [hbe]
  | false =>
    simp [hbe]
    omega

theorem mismCount_swap (a b : List Nat) : ∀ (rs qs : List ℕ),
    mismCount b a qs rs = mismCount a b rs qs := by
  intro rs
  induction rs with
  | nil =>
    intro qs
    cases qs <;> rfl
  | cons r rs ih =>
    intro qs
    cases qs with
    | nil => rfl
    | cons q qs =>
      rw [mismCount_cons, mismCount_cons, ih qs]
      congr 1
      have hbeq : (b.getD q 0 == a.getD r 0) = (a.getD r 0 == b.getD q 0) := by
        simp [eq_comm]
      rw [hbeq]

theorem zipTake_takeWhile_swap : ∀ (a b : List Nat) (k : ℕ),
    (((a.zip b).take k).takeWhile fun ab => ab.1 == ab.2).length =
    (((b.zip a).take k).takeWhile fun ab => ab.1 == ab.2).length := by
  intro a
  induction a with
  | nil =>
    intro b k
    cases b <;> simp
  | cons x a ih =>
    intro b k
    cases b with
    | nil => simp
    | cons y b =>
      cases k with
      | zero => simp
      | succ k =>
        rw [List.zip_cons_cons, List.zip_cons_cons, List.take_succ_cons, List.take_succ_cons]
        cases hbe : (x == y) with
        | true =>
          have hxy : x = y := by simpa using hbe
          subst hxy
          rw [List.takeWhile_cons_of_pos (by simp),
            List.takeWhile_cons_of_pos (by simp)]
          simp only [List.length_cons]
          rw [ih b k]
        | false =>
          have hxy : ¬ x = y := by simpa using hbe
          have hyx : ¬ y = x := fun h => hxy h.symm
          rw [List.takeWhile_cons_of_neg (by simp [hxy]),
            List.takeWhile_cons_of_neg (by simp [hyx])]

theorem pfxCount_swap (a b : List Nat) : JaroWinkler.pfxCount a b = JaroWinkler.pfxCount b a := by
  unfold JaroWinkler.pfxCount
  exact zipTake_takeWhile_swap a b 4

theorem scoreSpec_swap (a b : List Nat) (hlen : a.length = b.length) :
    scoreSpec a b = scoreSpec b a := by
  have hperm := jwMatchSpec_swap a b hlen
  obtain ⟨hpair_ab, hbd_ab, hnd_ab, hml_ab⟩ := jwMatchSpec_props a b
  obtain ⟨hpair_ba, hbd_ba, hnd_ba, hml_ba⟩ := jwMatchSpec_props b a
  have hm : (jwMatchSpec b a).length = (jwMatchSpec a b).length := by
    have hh := hperm.length_eq
    simpa using hh
  have hbd2ab : ∀ x ∈ (jwMatchSpec a b).map Prod.snd, x < b.length := by
    intro x hx
    obtain ⟨p, hp, hp2⟩ := List.mem_map.mp hx
    exact hp2 ▸ (hbd_ab p hp).2
  have hbd2ba : ∀ x ∈ (jwMatchSpec b a).map Prod.snd, x < a.length := by
    intro x hx
    obtain ⟨p, hp, hp2⟩ := List.mem_map.mp hx
    exact hp2 ▸ (hbd_ba p hp).2
  have hr_ba : (jwMatchSpec b a).map Prod.fst = sortedColsOf b.length (jwMatchSpec a b) := by
    apply sorted_perm_eq hpair_ba (sortedColsOf_pairwise _ _)
    have h1 : List.Perm ((jwMatchSpec b a).map Prod.fst) ((jwMatchSpec a b).map Prod.snd) := by
      have hh := hperm.map Prod.snd
      simpa [List.map_map, Function.comp] using hh
    exact h1.trans (sortedColsOf_perm hnd_ab hbd2ab).symm
  have hq_ba : sortedColsOf a.length (jwMatchSpec b a) = (jwMatchSpec a b).map Prod.fst := by
    apply sorted_perm_eq (sortedColsOf_pairwise _ _) hpair_ab
    have h1 : List.Perm ((jwMatchSpec b a).map Prod.snd) ((jwMatchSpec a b).map Prod.fst) := by
      have hh := hperm.map Prod.fst
      simpa [List.map_map, Function.comp] using hh
    exact (sortedColsOf_perm hnd_ba hbd2ba).trans h1
  have ht : mismCount b a ((jwMatchSpec b a).map Prod.fst)
      (sortedColsOf a.length (jwMatchSpec b a)) =
      mismCount a b ((jwMatchSpec a b).map Prod.fst)
        (sortedColsOf b.length (jwMatchSpec a b)) := by
    rw [hr_ba, hq_ba, mismCount_swap]
  unfold scoreSpec
  by_cases hm0 : (jwMatchSpec a b).length = 0
  · rw [if_pos hm0, if_pos (by rw [hm]; exact hm0)]
  · rw [if_neg hm0, if_neg (by rw [hm]; exact hm0)]
    rw [hm, ht, ← pfxCount_swap a b, hlen]

theorem scoreOf_swap (s1 s2 : List Nat) : scoreOf s1 s2 = scoreOf s2 s1 := by
  unfold scoreOf
  cases he1 : s1.isEmpty with
  | true =>
    cases he2 : s2.isEmpty with
    | true => simp [he1, he2]
    | false => simp [he1, he2]
  | false =>
    cases he2 : s2.isEmpty with
    | true => simp [he1, he2]
    | false =>
      simp only [he1, he2, Bool.and_false, Bool.false_and, Bool.or_false, Bool.false_or,
        Bool.false_eq_true, if_false]
      rcases lt_trichotomy s1.length s2.length with hlt | heq | hgt
      · rw [if_neg (by omega), if_pos (by omega)]
      · rw [if_neg (by omega), if_neg (by omega)]
        exact scoreSpec_swap s1 s2 heq
      · rw [if_pos (by omega), if_neg (by omega)]

theorem ensure_capacity_clean {jw : JaroWinkler} (h : bufClean jw.indices) (cap : ℕ) :
    bufClean (jw.ensure_capacity cap).indices := by
  unfold JaroWinkler.ensure_capacity
  split_ifs with h1 h2
  · exact h
  · exact bufClean_replicate _
  · exact bufClean_replicate _

theorem ensure_capacity_length (jw : JaroWinkler) (cap : ℕ) :
    cap ≤ (jw.ensure_capacity cap).indices.length ∧
      jw.indices.length ≤ (jw.ensure_capacity cap).indices.length := by
  unfold JaroWinkler.ensure_capacity
  split_ifs with h1 h2 <;> simp <;> omega

theorem apply_spec (jw : JaroWinkler) (s1 s2 : List Nat) (hclean : bufClean jw.indices) :
    jw.apply s1 s2 = some (scoreOf s1 s2,
      if s1.isEmpty || s2.isEmpty then jw
      else jw.ensure_capacity (s1.length + s2.length)) := by
  unfold JaroWinkler.apply scoreOf
  cases he1 : s1.isEmpty with
  | true =>
    cases he2 : s2.isEmpty with
    | true => simp [he1, he2]
    | false => simp [he1, he2]
  | false =>
    have hne1 : s1.length ≠ 0 := by
      intro h
      exact absurd h (by simpa using he1)
    cases he2 : s2.isEmpty with
    | true => simp [he1, he2]
    | false =>
      have hne2 : s2.length ≠ 0 := by
        intro h
        exact absurd h (by simpa using he2)
      simp only [he1, he2, Bool.and_false, Bool.false_and, Bool.or_false, Bool.false_or,
        Bool.false_eq_true, if_false]
      have hcl := ensure_capacity_clean hclean (s1.length + s2.length)
      have hll := ensure_capacity_length jw (s1.length + s2.length)
      by_cases hgt : s1.length > s2.length
      · rw [if_pos hgt, if_pos hgt]
        have hcalc := calculate_spec s2 s1 (jw.ensure_capacity (s1.length + s2.length)).indices
          hcl (by omega) (by omega)
        rw [hcalc]
      · rw [if_neg hgt, if_neg hgt]
        have hcalc := calculate_spec s1 s2 (jw.ensure_capacity (s1.length + s2.length)).indices
          hcl (by omega) (by omega)
        rw [hcalc]

theorem mismCount_le (minb maxb : List Nat) (rs qs : List ℕ) :
    mismCount minb maxb rs qs ≤ rs.length := by
  unfold mismCount
  have h1 := List.length_filter_le
    (fun rq => !(minb.getD rq.1 0 == maxb.getD rq.2 0)) (rs.zip qs)
  have h2 : (rs.zip qs).length ≤ rs.length := by
    rw [List.length_zip]
    omega
  omega

theorem pfxCount_le_four (minb maxb : List Nat) : JaroWinkler.pfxCount minb maxb ≤ 4 := by
  unfold JaroWinkler.pfxCount
  have h1 : ((((minb.zip maxb).take 4).takeWhile fun ab => ab.1 == ab.2)).length ≤
      ((minb.zip maxb).take 4).length :=
    (List.takeWhile_sublist _).length_le
  have h2 : ((minb.zip maxb).take 4).length ≤ 4 := by
    rw [List.length_take]
    omega
  omega

theorem scoreSpec_zero {minb maxb : List Nat} (hm : (jwMatchSpec minb maxb).length = 0) :
    scoreSpec minb maxb = 0 := by
  unfold scoreSpec
  rw [if_pos hm]

theorem scoreSpec_pos (minb maxb : List Nat) (hmm : minb.length ≤ maxb.length)
    (hm : (jwMatchSpec minb maxb).length ≠ 0) :
    0 < scoreSpec minb maxb ∧ scoreSpec minb maxb ≤ 1 := by
  obtain ⟨-, -, -, hmlen⟩ := jwMatchSpec_props minb maxb
  have hm1 : 1 ≤ (jwMatchSpec minb maxb).length := Nat.one_le_iff_ne_zero.mpr hm
  have ht : mismCount minb maxb ((jwMatchSpec minb maxb).map Prod.fst)
      (sortedColsOf maxb.length (jwMatchSpec minb maxb)) / 2 ≤
        (jwMatchSpec minb maxb).length := by
    have h1 := mismCount_le minb maxb ((jwMatchSpec minb maxb).map Prod.fst)
      (sortedColsOf maxb.length (jwMatchSpec minb maxb))
    rw [List.length_map] at h1
    omega
  refine fscore_bounds (jwMatchSpec minb maxb).length
    (mismCount minb maxb ((jwMatchSpec minb maxb).map Prod.fst)
      (sortedColsOf maxb.length (jwMatchSpec minb maxb)) / 2)
    (JaroWinkler.pfxCount minb maxb) minb.length maxb.length hm1 hmlen hmm ht
    (pfxCount_le_four minb maxb) _ (scoreSpec minb maxb) rfl ?_
  unfold scoreSpec
  rw [if_neg hm]

theorem jwMatchSpecAux_diag (s : List Nat) : ∀ (is : List ℕ) (k : ℕ) (cons : List ℕ),
    (∀ j, j ∈ cons ↔ j < k) → is = List.range' k (s.length - k) → k ≤ s.length →
    jwMatchSpecAux s s cons is = is.map fun i => (i, i) := by
  intro is
  induction is with
  | nil => intro k cons _ _ _; rfl
  | cons i is ih =>
    intro k cons hcons his hk
    have hkn : k < s.length := by
      by_contra hkn
      have : s.length - k = 0 := by omega
      rw [this] at his
      simp at his
    have hik : i = k ∧ is = List.range' (k+1) (s.length - (k+1)) := by
      have : s.length - k = (s.length - (k+1)) + 1 := by omega
      rw [this, List.range'_succ] at his
      exact ⟨(List.cons_eq_cons.mp his).1, (List.cons_eq_cons.mp his).2⟩
    obtain ⟨rfl, his'⟩ := hik
    have hfind : ((List.range s.length).filter fun j =>
        decide (inSpecWindow s.length i j)).find?
        (fun j => (s.getD i 0 == s.getD j 0) && !(cons.contains j)) = some i := by
      rw [find?_sorted_eq_some (by
        rw [List.range_eq_range']
        exact (pairwise_lt_range' 0 s.length).filter _)]
      have hwin : inSpecWindow s.length i i := by
        unfold inSpecWindow specRange
        omega
      refine ⟨List.mem_filter.mpr ⟨List.mem_range.mpr hkn, decide_eq_true hwin⟩, ?_, ?_⟩
      · have hic : i ∉ cons := fun hc => absurd ((hcons i).mp hc) (lt_irrefl i)
        simp [hic]
      · intro y hy hpy
        by_contra hyi
        have hyk : y < i := by omega
        have hyc : y ∈ cons := (hcons y).mpr hyk
        simp [hyc] at hpy
    rw [jwMatchSpecAux_cons_some hfind, List.map_cons]
    refine congrArg _ (ih (i+1) (i :: cons) ?_ his' (by omega))
    intro j
    rw [List.mem_cons, hcons j]
    omega

theorem jwMatchSpec_diag (s : List Nat) :
    jwMatchSpec s s = (List.range s.length).map fun i => (i, i) := by
  unfold jwMatchSpec
  rw [jwMatchSpecAux_diag s (List.range s.length) 0 [] (by simp)
    (by rw [List.range_eq_range']; simp) (Nat.zero_le _)]

theorem zip_self (l : List ℕ) : l.zip l = l.map fun x => (x, x) := by
  induction l with
  | nil => rfl
  | cons a l ih => simp [ih]

theorem mismCount_diag (s : List Nat) (l : List ℕ) : mismCount s s l l = 0 := by
  induction l with
  | nil => rfl
  | cons x l ih =>
    unfold mismCount at ih ⊢
    simp only [List.zip_cons_cons, List.filter_cons]
    rw [if_neg (by simp)]
    exact ih

theorem sortedColsOf_diag (n : ℕ) :
    sortedColsOf n ((List.range n).map fun i => (i, i)) = List.range n := by
  unfold sortedColsOf
  rw [List.filter_eq_self]
  intro j hj
  simp only [List.map_map]
  have hcomp : (Prod.snd ∘ fun i => (i, i) : ℕ → ℕ) = id := rfl
  rw [hcomp, List.map_id]
  exact List.elem_eq_true_of_mem hj

theorem fround_two : fround (2:ℚ) = 2 := by
  have h := fround_natCast 2 (by norm_num)
  simpa using h

theorem fround_three : fround (3:ℚ) = 3 := by
  have h := fround_natCast 3 (by norm_num)
  simpa using h

theorem scoreSpec_diag (s : List Nat) (hne : s.length ≠ 0) : scoreSpec s s = 1 := by
  have hM := jwMatchSpec_diag s
  have hlen : (jwMatchSpec s s).length = s.length := by
    rw [hM]
    simp
  have hfst : ((jwMatchSpec s s).map Prod.fst) = List.range s.length := by
    rw [hM, List.map_map]
    have hcomp : (Prod.fst ∘ fun i => (i, i) : ℕ → ℕ) = id := rfl
    rw [hcomp, List.map_id]
  have hcols : sortedColsOf s.length (jwMatchSpec s s) = List.range s.length := by
    rw [hM]
    exact sortedColsOf_diag s.length
  have hmis : mismCount s s ((jwMatchSpec s s).map Prod.fst)
      (sortedColsOf s.length (jwMatchSpec s s)) = 0 := by
    rw [hfst, hcols]
    exact mismCount_diag s _
  unfold scoreSpec
  rw [if_neg (by rw [hlen]; exact hne)]
  rw [hmis, hlen]
  simp only [Nat.zero_div, Nat.cast_zero, fround_zero]
  have hq : (0:ℚ) < fround (s.length : ℚ) :=
    fround_pos (by exact_mod_cast Nat.pos_of_ne_zero hne)
  have hdiv : fdiv (fround (s.length : ℚ)) (fround (s.length : ℚ)) = 1 := by
    unfold fdiv
    rw [div_self hq.ne']
    exact fround_one
  have hsub : fsub (fround ((s.length : ℚ))) 0 = fround (s.length : ℚ) := by
    unfold fsub
    rw [sub_zero]
    exact fround_fix (fround_rep (by positivity))
  rw [hsub, hdiv]
  have h11 : fadd (1:ℚ) 1 = 2 := by
    unfold fadd
    rw [show (1:ℚ) + 1 = 2 by norm_num]
    exact fround_two
  have h21 : fadd (2:ℚ) 1 = 3 := by
    unfold fadd
    rw [show (2:ℚ) + 1 = 3 by norm_num]
    exact fround_three
  have h33 : fdiv (3:ℚ) 3 = 1 := by
    unfold fdiv
    rw [div_self (by norm_num)]
    exact fround_one
  rw [h11, h21, h33]
  have hs11 : fsub (1:ℚ) 1 = 0 := by
    unfold fsub
    rw [sub_self]
    exact fround_zero
  rw [hs11]
  have hm0 : fmul (fmul c01 (fround (JaroWinkler.pfxCount s s : ℚ))) 0 = 0 := by
    unfold fmul
    rw [mul_zero]
    exact fround_zero
  rw [hm0]
  unfold fadd
  rw [add_zero]
  exact fround_one

theorem scoreOf_diag (s : List Nat) : scoreOf s s = 1 := by
  unfold scoreOf
  cases he : s.isEmpty with
  | true => simp [he]
  | false =>
    have hne : s.length ≠ 0 := by
      intro h
      exact absurd h (by simpa using he)
    simp only [he, Bool.and_false, Bool.or_false, Bool.false_eq_true, if_false]
    rw [if_neg (lt_irrefl _)]
    exact scoreSpec_diag s hne

theorem scoreOf_bounds (s1 s2 : List Nat) : 0 ≤ scoreOf s1 s2 ∧ scoreOf s1 s2 ≤ 1 := by
  unfold scoreOf
  split_ifs with h1 h2 h3
  · norm_num
  · norm_num
  · by_cases hm : (jwMatchSpec s2 s1).length = 0
    · rw [scoreSpec_zero hm]
      norm_num
    · have hb := scoreSpec_pos s2 s1 (by omega) hm
      exact ⟨hb.1.le, hb.2⟩
  · by_cases hm : (jwMatchSpec s1 s2).length = 0
    · rw [scoreSpec_zero hm]
      norm_num
    · have hb := scoreSpec_pos s1 s2 (by omega) hm
      exact ⟨hb.1.le, hb.2⟩

theorem apply_some_clean (jw : JaroWinkler) (s1 s2 : List Nat)
    (hclean : bufClean jw.indices) :
    ∃ jw', jw.apply s1 s2 = some (scoreOf s1 s2, jw') ∧ bufClean jw'.indices ∧
      jw.indices.length ≤ jw'.indices.length := by
  rw [apply_spec jw s1 s2 hclean]
  refine ⟨_, rfl, ?_, ?_⟩
  · split_ifs with h
    · exact hclean
    · exact ensure_capacity_clean hclean _
  · split_ifs with h
    · exact le_rfl
    · exact (ensure_capacity_length jw _).2

theorem applySeq_clean : ∀ (ps : List (List Nat × List Nat)) (jw : JaroWinkler),
    bufClean jw.indices →
    ∃ jw', applySeq jw ps = some jw' ∧ bufClean jw'.indices ∧
      jw.indices.length ≤ jw'.indices.length := by
  intro ps
  induction ps with
  | nil =>
    intro jw hclean
    exact ⟨jw, rfl, hclean, le_rfl⟩
  | cons p ps ih =>
    intro jw hclean
    obtain ⟨jw1, happ, hc1, hl1⟩ := apply_some_clean jw p.1 p.2 hclean
    obtain ⟨jw', hseq, hc', hl'⟩ := ih jw1 hc1
    refine ⟨jw', ?_, hc', le_trans hl1 hl'⟩
    unfold applySeq
    rw [happ]
    exact hseq

theorem with_size_clean (n : ℕ) : bufClean (JaroWinkler.with_size n).indices :=
  bufClean_replicate n

/-! ## The claims -/

/-- C2: the scoring operation is symmetric: for every pair of byte strings
`s1` and `s2` (any lengths, including equal lengths) and every scorer whose
buffer is in the sentinel state, `apply s1 s2` and `apply s2 s1` return the
same score. -/
theorem claim_C2 (jw : JaroWinkler) (s1 s2 : List Nat) (hclean : bufClean jw.indices) :
    (jw.apply s1 s2).map Prod.fst = (jw.apply s2 s1).map Prod.fst := by
  rw [apply_spec jw s1 s2 hclean, apply_spec jw s2 s1 hclean]
  simp [scoreOf_swap s1 s2]

theorem claim_C2_witness :
    bufClean (JaroWinkler.with_size 3).indices ∧
    ((JaroWinkler.with_size 3).apply [97] [98, 99]).map Prod.fst =
      ((JaroWinkler.with_size 3).apply [98, 99] [97]).map Prod.fst :=
  ⟨by decide, claim_C2 (JaroWinkler.with_size 3) [97] [98, 99] (by decide)⟩

/-- C3: the scoring operation is reflexive: for every byte string `s`
(including the empty string) and every scorer whose buffer is in the sentinel
state, `apply s s` returns exactly `1`. -/
theorem claim_C3 (jw : JaroWinkler) (s : List Nat) (hclean : bufClean jw.indices) :
    (jw.apply s s).map Prod.fst = some 1 := by
  rw [apply_spec jw s s hclean]
  simp [scoreOf_diag s]

theorem claim_C3_witness :
    bufClean (JaroWinkler.with_size 3).indices ∧
    ((JaroWinkler.with_size 3).apply [104, 105] [104, 105]).map Prod.fst = some 1 :=
  ⟨by decide, claim_C3 (JaroWinkler.with_size 3) [104, 105] (by decide)⟩

/-- C4: for every pair of inputs, the score returned by `apply` lies in the
closed interval `[0, 1]` (the exact rational model has no NaN value, and the
score is proved nonnegative and at most one). -/
theorem claim_C4 (jw jw' : JaroWinkler) (s1 s2 : List Nat) (q : ℚ)
    (hclean : bufClean jw.indices) (happ : jw.apply s1 s2 = some (q, jw')) :
    0 ≤ q ∧ q ≤ 1 := by
  have hq : q = scoreOf s1 s2 := by
    have hmap := congrArg (fun o => Option.map Prod.fst o) happ
    rw [apply_spec jw s1 s2 hclean] at hmap
    simpa using hmap.symm
  rw [hq]
  exact scoreOf_bounds s1 s2

/-- C5: empty-string cases are settled before any buffer work: both inputs
empty gives score `1`, and exactly one empty input (in either position) gives
score `0`, the scorer state being returned untouched. -/
theorem claim_C5 (jw : JaroWinkler) (s : List Nat) (hs : s.isEmpty = false) :
    jw.apply [] [] = some (1, jw) ∧ jw.apply [] s = some (0, jw) ∧
      jw.apply s [] = some (0, jw) := by
  refine ⟨?_, ?_, ?_⟩ <;> simp [JaroWinkler.apply, hs]

theorem claim_C5_witness :
    ([97] : List Nat).isEmpty = false ∧
    ((JaroWinkler.with_size 0).apply [] [] = some (1, JaroWinkler.with_size 0) ∧
      (JaroWinkler.with_size 0).apply [] [97] = some (0, JaroWinkler.with_size 0) ∧
      (JaroWinkler.with_size 0).apply [97] [] = some (0, JaroWinkler.with_size 0)) :=
  ⟨by decide, claim_C5 (JaroWinkler.with_size 0) [97] (by decide)⟩

/-- C6: buffer growth is unobservable: for every initial capacity `n`
(including `0`), every sequence `ps` of prior calls, and every pair `a`, `b`,
the call on the used scorer succeeds and returns the same score
`scoreOf a b` as a fresh scorer built with any capacity
`cap ≥ a.length + b.length`. -/
theorem claim_C6 (n cap : ℕ) (ps : List (List Nat × List Nat)) (a b : List Nat)
    (_hcap : a.length + b.length ≤ cap) :
    ∃ jw' jw₂ jw₃, applySeq (JaroWinkler.with_size n) ps = some jw' ∧
      jw'.apply a b = some (scoreOf a b, jw₂) ∧
      (JaroWinkler.with_size cap).apply a b = some (scoreOf a b, jw₃) := by
  obtain ⟨jw', hseq, hc', -⟩ := applySeq_clean ps (JaroWinkler.with_size n) (with_size_clean n)
  obtain ⟨jw₂, h2, -, -⟩ := apply_some_clean jw' a b hc'
  obtain ⟨jw₃, h3, -, -⟩ := apply_some_clean (JaroWinkler.with_size cap) a b (with_size_clean cap)
  exact ⟨jw', jw₂, jw₃, hseq, h2, h3⟩

theorem claim_C6_witness :
    ([97] : List Nat).length + ([98, 97] : List Nat).length ≤ 3 ∧
    ∃ jw' jw₂ jw₃,
      applySeq (JaroWinkler.with_size 0) [([104], [104])] = some jw' ∧
      jw'.apply [97] [98, 97] = some (scoreOf [97] [98, 97], jw₂) ∧
      (JaroWinkler.with_size 3).apply [97] [98, 97] = some (scoreOf [97] [98, 97], jw₃) :=
  ⟨by decide, claim_C6 0 3 [([104], [104])] [97] [98, 97] (by decide)⟩

/-- C7: the matching pass realises the spec's window/first-match/consumed-flag
description: on a sentinel buffer of sufficient length, `matchesRun` returns
exactly the number of pairs of the spec-level greedy matching `jwMatchSpec`
(first window position with equal byte and unconsumed flag, each long-string
position consumed at most once), the buffer encodes the recorded match rows
and consumed columns, and if no match is found the score of `calculate`
is `0`. -/
theorem claim_C7 (minb maxb : List Nat) (buf : List Int) (hclean : bufClean buf)
    (hmm : minb.length ≤ maxb.length) (hlen : minb.length + maxb.length ≤ buf.length) :
    ∃ buf', JaroWinkler.matchesRun minb maxb buf = (buf', (jwMatchSpec minb maxb).length) ∧
      Encodes minb.length maxb.length ((jwMatchSpec minb maxb).map Prod.fst)
        ((jwMatchSpec minb maxb).map Prod.snd) buf' ∧
      ((jwMatchSpec minb maxb).length = 0 →
        JaroWinkler.calculate minb maxb buf = some (0, buf)) := by
  obtain ⟨buf', h1, h2, -⟩ := matchesRun_spec minb maxb buf hclean hmm hlen
  refine ⟨buf', h1, h2, fun hm => ?_⟩
  rw [calculate_spec minb maxb buf hclean hmm hlen, scoreSpec_zero hm]

theorem claim_C7_witness :
    bufClean [(-1 : Int), -1] ∧ ([97] : List Nat).length ≤ ([98] : List Nat).length ∧
    ([97] : List Nat).length + ([98] : List Nat).length ≤ [(-1 : Int), -1].length ∧
    ∃ buf', JaroWinkler.matchesRun [97] [98] [-1, -1] = (buf', (jwMatchSpec [97] [98]).length) ∧
      Encodes ([97] : List Nat).length ([98] : List Nat).length
        ((jwMatchSpec [97] [98]).map Prod.fst) ((jwMatchSpec [97] [98]).map Prod.snd) buf' ∧
      ((jwMatchSpec [97] [98]).length = 0 →
        JaroWinkler.calculate [97] [98] [-1, -1] = some (0, [-1, -1])) :=
  ⟨by decide, by decide, by decide, claim_C7 [97] [98] [-1, -1] (by decide) (by decide) (by decide)⟩

/-- C9: the split invariant holds and no access leaves the buffer: after the
grow step the buffer length is at least `s1.length + s2.length` (which is
`min.len + max.len` whichever way the swap goes), and on a sentinel buffer the
whole call, including every modelled unchecked read of the transposition
cursor, stays in bounds, so `apply` never reaches the undefined-behaviour
result `none`. -/
theorem claim_C9 (jw : JaroWinkler) (s1 s2 : List Nat) (hclean : bufClean jw.indices) :
    s1.length + s2.length ≤ (jw.ensure_capacity (s1.length + s2.length)).indices.length ∧
      (jw.apply s1 s2).isSome = true := by
  refine ⟨(ensure_capacity_length jw _).1, ?_⟩
  rw [apply_spec jw s1 s2 hclean]
  rfl

theorem claim_C9_witness :
    bufClean (JaroWinkler.with_size 0).indices ∧
    (([97] : List Nat).length + ([98, 99] : List Nat).length ≤
      ((JaroWinkler.with_size 0).ensure_capacity
        (([97] : List Nat).length + ([98, 99] : List Nat).length)).indices.length ∧
      ((JaroWinkler.with_size 0).apply [97] [98, 99]).isSome = true) :=
  ⟨by decide, claim_C9 (JaroWinkler.with_size 0) [97] [98, 99] (by decide)⟩

/-- C8: the scorer's state invariant is preserved: every freshly constructed
scorer has all slots at the sentinel `-1`, and across any completed `apply`
call on a sentinel-state scorer (the `m = 0` early return included) the buffer
length never decreases and every slot is back at `-1` afterwards. -/
theorem claim_C8 (n : ℕ) (jw jw' : JaroWinkler) (s1 s2 : List Nat) (q : ℚ)
    (hclean : bufClean jw.indices) (happ : jw.apply s1 s2 = some (q, jw')) :
    bufClean (JaroWinkler.with_size n).indices ∧
      jw.indices.length ≤ jw'.indices.length ∧ bufClean jw'.indices := by
  obtain ⟨jw₂, h2, hc2, hl2⟩ := apply_some_clean jw s1 s2 hclean
  rw [happ] at h2
  have hj : jw' = jw₂ := by
    have hmap := congrArg (fun o => Option.map Prod.snd o) h2
    simpa using hmap
  exact ⟨with_size_clean n, hj ▸ hl2, hj ▸ hc2⟩

/-- C10: for non-empty inputs the score is `0` exactly when the matching pass
finds no match: with `minb`/`maxb` the two inputs in swap order, a returned
score is `0` if the spec-level matching is empty, and strictly positive as
soon as at least one match exists. -/
theorem claim_C10 (jw jw' : JaroWinkler) (s1 s2 : List Nat) (q : ℚ)
    (h1 : s1.isEmpty = false) (h2 : s2.isEmpty = false)
    (hclean : bufClean jw.indices) (happ : jw.apply s1 s2 = some (q, jw')) :
    ((jwMatchSpec (if s1.length > s2.length then s2 else s1)
        (if s1.length > s2.length then s1 else s2)).length = 0 → q = 0) ∧
    ((jwMatchSpec (if s1.length > s2.length then s2 else s1)
        (if s1.length > s2.length then s1 else s2)).length ≠ 0 → 0 < q) := by
  have hq : q = scoreOf s1 s2 := by
    have hmap := congrArg (fun o => Option.map Prod.fst o) happ
    rw [apply_spec jw s1 s2 hclean] at hmap
    simpa using hmap.symm
  subst hq
  unfold scoreOf
  simp only [h1, h2, Bool.false_and, Bool.false_or, Bool.false_eq_true, if_false]
  by_cases hgt : s1.length > s2.length
  · rw [if_pos hgt, if_pos hgt, if_pos hgt]
    have hlen2 : s2.length ≠ 0 := by
      intro h
      exact absurd h (by simpa using h2)
    exact ⟨fun hm => scoreSpec_zero hm, fun hm => (scoreSpec_pos s2 s1 (by omega) hm).1⟩
  · rw [if_neg hgt, if_neg hgt, if_neg hgt]
    exact ⟨fun hm => scoreSpec_zero hm, fun hm => (scoreSpec_pos s1 s2 (by omega) hm).1⟩

section ConcreteEvaluation

attribute [local semireducible] Rat.add Rat.sub Rat.mul Rat.inv Rat.ofScientific

set_option maxRecDepth 8000

/-- C1: the public `apply` entry point on a fresh scorer returns the
byte-exact reference values: `0.9611111111111111` on the byte strings of
`"martha"` and `"marhta"`, and `0.7897435897435898` on those of `"Foo bar"`
and `"Food candybar"` (each decimal literal standing for the binary64 value
it rounds to, here expressed through the exact rounding function `fround`). -/
theorem claim_C1 :
    (JaroWinkler.new.apply [109, 97, 114, 116, 104, 97]
        [109, 97, 114, 104, 116, 97]).map Prod.fst =
      some (fround (9611111111111111 / 10000000000000000)) ∧
    (JaroWinkler.new.apply [70, 111, 111, 32, 98, 97, 114]
        [70, 111, 111, 100, 32, 99, 97, 110, 100, 121, 98, 97, 114]).map Prod.fst =
      some (fround (7897435897435898 / 10000000000000000)) := by
  constructor
  · decide
  · decide

theorem claim_C4_witness :
    bufClean (JaroWinkler.with_size 2).indices ∧
    (JaroWinkler.with_size 2).apply [97] [97] = some (1, JaroWinkler.with_size 2) ∧
    (0 ≤ (1 : ℚ) ∧ (1 : ℚ) ≤ 1) :=
  ⟨by decide, by decide,
    claim_C4 (JaroWinkler.with_size 2) (JaroWinkler.with_size 2) [97] [97] 1
      (by decide) (by decide)⟩

theorem claim_C8_witness :
    bufClean (JaroWinkler.with_size 2).indices ∧
    (JaroWinkler.with_size 2).apply [97] [97] = some (1, JaroWinkler.with_size 2) ∧
    (bufClean (JaroWinkler.with_size 5).indices ∧
      (JaroWinkler.with_size 2).indices.length ≤ (JaroWinkler.with_size 2).indices.length ∧
      bufClean (JaroWinkler.with_size 2).indices) :=
  ⟨by decide, by decide,
    claim_C8 5 (JaroWinkler.with_size 2) (JaroWinkler.with_size 2) [97] [97] 1
      (by decide) (by decide)⟩

theorem claim_C10_witness :
    ([97] : List Nat).isEmpty = false ∧ ([97] : List Nat).isEmpty = false ∧
    bufClean (JaroWinkler.with_size 2).indices ∧
    (JaroWinkler.with_size 2).apply [97] [97] = some (1, JaroWinkler.with_size 2) ∧
    (((jwMatchSpec (if ([97] : List Nat).length > ([97] : List Nat).length then [97] else [97])
        (if ([97] : List Nat).length > ([97] : List Nat).length then [97] else [97])).length = 0 →
          (1 : ℚ) = 0) ∧
      ((jwMatchSpec (if ([97] : List Nat).length > ([97] : List Nat).length then [97] else [97])
        (if ([97] : List Nat).length > ([97] : List Nat).length then [97] else [97])).length ≠ 0 →
          0 < (1 : ℚ))) :=
  ⟨by decide, by decide, by decide, by decide,
    claim_C10 (JaroWinkler.with_size 2) (JaroWinkler.with_size 2) [97] [97] 1
      (by decide) (by decide) (by decide) (by decide)⟩

end ConcreteEvaluation
